import Mathlib

/-!
Verification of the Mancala engine (`mancala_engine.py`): board state,
rules engine (`apply_move`: sowing, capture, end-of-game harvest, turn
advancement), the store-difference utility, and the fixed-depth
minimax / alpha-beta search policies.

Pits are modelled as a `List Int` (Python list of ints, indices 0-13),
players as `Nat` (0 or 1 in normal use, matching the Python ints), and
the recursive search functions are indexed by an explicit fuel parameter
(Python recursion has no such bound; `none` marks exhausted fuel, and
termination claims become statements about the existence of sufficient
fuel).
-/

namespace Mancala

/-- Board state, mirroring the Python dataclass `MancalaState`. -/
structure MancalaState where
  pits : List Int
  player_to_move : Nat
  last_move_was_capture : Bool := false
  game_over : Bool := false
deriving Repr, DecidableEq

/-- `MancalaState.standard_start`: `stones_per_pit` in each of the 12 row
pits, 0 in both stores, player 0 to move. -/
def standard_start (stones_per_pit : Int := 4) : MancalaState :=
  { pits := List.replicate 6 stones_per_pit ++ [0] ++ List.replicate 6 stones_per_pit ++ [0]
    player_to_move := 0 }

/-- `MancalaState.side_range`: `range(0, 6)` for player 0, else `range(7, 13)`. -/
def side_range (player : Nat) : List Nat :=
  if player = 0 then List.range' 0 6 else List.range' 7 6

/-- `MancalaState.mancala_index`: own store index. -/
def mancala_index (player : Nat) : Nat :=
  if player = 0 then 6 else 13

/-- `MancalaState.opponent_mancala_index`. -/
def opponent_mancala_index (player : Nat) : Nat :=
  if player = 0 then 13 else 6

/-- `MancalaState.legal_moves`: row-pit indices of the queried player
holding a positive count; the player defaults to the current mover. -/
def MancalaState.legal_moves (s : MancalaState) (player : Nat := s.player_to_move) :
    List Nat :=
  (side_range player).filter (fun i => 0 < s.pits.getD i 0)

/-- `MancalaState.clone`: value copy (the model has value semantics). -/
def MancalaState.clone (s : MancalaState) : MancalaState :=
  { pits := s.pits, player_to_move := s.player_to_move
    last_move_was_capture := s.last_move_was_capture, game_over := s.game_over }

/-- `opposite_index(i) = 12 - i`. -/
def opposite_index (i : Nat) : Nat := 12 - i

/-- One step of the sowing ring: `(idx + 1) % 14`. -/
def next_index (i : Nat) : Nat := (i + 1) % 14

/-- The sowing `while` loop of `apply_move`: place `stones` stones one at a
time into successive ring slots, skipping the opponent's store (`opp`);
a skipped slot does not consume a stone, and since `next_index opp ≠ opp`
at most one skip happens per placement.  Returns the final pits together
with the index where the last stone landed. -/
def sow_loop (opp : Nat) : Nat → Nat → List Int → List Int × Nat
  | 0, idx, pits => (pits, idx)
  | stones + 1, idx, pits =>
      let j0 := next_index idx
      let j := if j0 = opp then next_index j0 else j0
      sow_loop opp stones j (pits.set j (pits.getD j 0 + 1))

/-- Lines 41-50 of `apply_move`: read the chosen pit, zero it, and sow its
stones; the `Int.toNat` matches the `while stones > 0` loop running
`max(stones, 0)` times. -/
def sow_result (s : MancalaState) (move_idx : Nat) : List Int × Nat :=
  sow_loop (opponent_mancala_index s.player_to_move)
    (s.pits.getD move_idx 0).toNat move_idx (s.pits.set move_idx 0)

/-- Lines 52-60 of `apply_move`: the capture check.  Returns the pits after
a possible capture together with the `last_move_was_capture` flag. -/
def capture_stage (player : Nat) (pits : List Int) (idx : Nat) : List Int × Bool :=
  if idx ∈ side_range player ∧ pits.getD idx 0 = 1 then
    let opp := opposite_index idx
    let captured := pits.getD opp 0
    if 0 < captured then
      let p1 := pits.set opp 0
      let p2 := p1.set idx 0
      (p2.set (mancala_index player) (p2.getD (mancala_index player) 0 + (captured + 1)), true)
    else (pits, false)
  else (pits, false)

/-- Sowing and capture combined: the pits and capture flag just before the
end-of-game check of `apply_move`. -/
def after_capture (s : MancalaState) (move_idx : Nat) : List Int × Bool :=
  let pi := sow_result s move_idx
  capture_stage s.player_to_move pi.1 pi.2

/-- `side_empty`'s sum: `sum(s.pits[i] for i in s.side_range(p))`. -/
def side_sum (player : Nat) (pits : List Int) : Int :=
  ((side_range player).map (fun i => pits.getD i 0)).sum

/-- Lines 66-70 of `apply_move` for one player: stash the row sum, zero the
row, credit the stash to that player's own store. -/
def harvest_side (player : Nat) (pits : List Int) : List Int :=
  let stash := side_sum player pits
  let z := (side_range player).foldl (fun acc i => acc.set i 0) pits
  z.set (mancala_index player) (z.getD (mancala_index player) 0 + stash)

/-- `apply_move(state, move_idx, continuation_rule)`: Python raises
`AssertionError("Illegal move")` on an illegal index; the model returns
`Except.error`.  Otherwise: sow, capture check, end-of-game harvest, and
turn advancement exactly as in lines 37-79 of the source. -/
def apply_move (state : MancalaState) (move_idx : Nat)
    (continuation_rule : Bool := false) : Except String MancalaState :=
  if move_idx ∈ state.legal_moves state.player_to_move then
    let player := state.player_to_move
    let pi := sow_result state move_idx
    let pc := capture_stage player pi.1 pi.2
    if side_sum 0 pc.1 = 0 ∨ side_sum 1 pc.1 = 0 then
      Except.ok { pits := harvest_side 1 (harvest_side 0 pc.1)
                  player_to_move := player
                  last_move_was_capture := pc.2, game_over := true }
    else if state.game_over then
      Except.ok { pits := pc.1, player_to_move := player
                  last_move_was_capture := pc.2, game_over := true }
    else
      Except.ok { pits := pc.1
                  player_to_move :=
                    if continuation_rule = true ∧ pi.2 = mancala_index player
                    then player else 1 - player
                  last_move_was_capture := pc.2, game_over := false }
  else Except.error "Illegal move"

/-- `utility(state, max_player)`: store-count differential. -/
def utility (s : MancalaState) (max_player : Nat) : Int :=
  s.pits.getD (mancala_index max_player) 0 - s.pits.getD (mancala_index (1 - max_player)) 0

/-- All entries of a pit list are non-negative. -/
def nonnegPits (l : List Int) : Prop := ∀ x ∈ l, 0 ≤ x

instance (l : List Int) : Decidable (nonnegPits l) := by
  unfold nonnegPits; infer_instance

/-! ### Concrete states used in witnesses and counterexamples -/

/-- The standard four-stone opening position. -/
def start4 : MancalaState := standard_start 4

/-- Result of move 2 from the standard start (last stone lands in store 6),
with the continuation rule enabled. -/
def start4_move2 : MancalaState :=
  { pits := [4, 4, 0, 5, 5, 5, 1, 4, 4, 4, 4, 4, 4, 0], player_to_move := 0 }

/-- A 13-stone pit: sowing from pit 0 wraps the whole ring and the last stone
lands back in pit 0 itself. -/
def cexCapture : MancalaState :=
  { pits := [13, 0, 0, 0, 0, 0, 0, 0, 0, 0, 0, 0, 0, 0], player_to_move := 0 }

/-- Result of move 0 from `cexCapture`: the wrap-around landing captures. -/
def cexCaptureResult : MancalaState :=
  { pits := [0, 1, 1, 1, 1, 1, 3, 1, 1, 1, 1, 1, 0, 0], player_to_move := 1
    last_move_was_capture := true }

/-- Moving the lone stone of pit 5 into the store empties player 0's row. -/
def harvState : MancalaState :=
  { pits := [0, 0, 0, 0, 0, 1, 0, 1, 0, 0, 0, 2, 0, 5], player_to_move := 0 }

/-- Result of move 5 from `harvState`: the end-of-game harvest. -/
def harvResult : MancalaState :=
  { pits := [0, 0, 0, 0, 0, 0, 1, 0, 0, 0, 0, 0, 0, 8], player_to_move := 0
    game_over := true }

/-- Both rows empty but `game_over` unset: reachable via `standard_start 0`,
and a diverging input for the search recursion. -/
def zeroState : MancalaState :=
  { pits := List.replicate 14 0, player_to_move := 0 }

/-! ### Search definitions

Python's `math.inf` / `-math.inf` sentinels and the integer utilities live
in `EInt`, integers extended with a bottom (`-inf`) and a top (`inf`).
The Python recursion has no fuel; the model's `Nat` fuel only bounds the
recursion depth, with `none` meaning the bound was hit — every claim about
the search quantifies over or exhibits sufficient fuel. -/

/-- Extended integers: `⊥` models `-math.inf` and `⊤` models `math.inf`. -/
abbrev EInt := WithBot (WithTop Int)

/-- Embed an integer utility into `EInt`. -/
def toE (n : Int) : EInt := ((n : WithTop Int) : EInt)

/-- `_terminal_or_depth(state, depth)`. -/
def terminal_or_depth (s : MancalaState) (depth : Int) : Bool :=
  s.game_over || depth == 0

/-- The pass-turn state built in the no-legal-moves branch of the search:
a clone with the mover flipped. -/
def pass_state (s : MancalaState) : MancalaState :=
  { s.clone with player_to_move := 1 - s.player_to_move }

/-- The `for m in legal: v = max(v, eval(child))` loop of `_max_value`,
starting from `v = -inf`; `none` propagates fuel exhaustion. -/
def fold_max (eval : MancalaState → Option EInt) (s : MancalaState) :
    EInt → List Nat → Option EInt
  | v, [] => some v
  | v, m :: rest =>
    match apply_move s m false with
    | Except.error _ => none
    | Except.ok child =>
      match eval child with
      | none => none
      | some w => fold_max eval s (max v w) rest

/-- The `v = min(v, eval(child))` loop of `_min_value`. -/
def fold_min (eval : MancalaState → Option EInt) (s : MancalaState) :
    EInt → List Nat → Option EInt
  | v, [] => some v
  | v, m :: rest =>
    match apply_move s m false with
    | Except.error _ => none
    | Except.ok child =>
      match eval child with
      | none => none
      | some w => fold_min eval s (min v w) rest

/-- `_max_value` (`isMax = true`) and `_min_value` (`isMax = false`),
fuel-indexed: terminal/depth cutoff returns the fixed-root utility; with no
legal moves the turn is passed at the same depth; otherwise the children
are evaluated at `depth - 1` through the max/min fold. -/
def mmEval : Nat → Bool → MancalaState → Int → Nat → Option EInt
  | 0, _, _, _, _ => none
  | fuel + 1, isMax, s, depth, mp =>
    if terminal_or_depth s depth then some (toE (utility s mp))
    else
      match s.legal_moves s.player_to_move with
      | [] => mmEval fuel (!isMax) (pass_state s) depth mp
      | ms =>
        if isMax then fold_max (fun c => mmEval fuel false c (depth - 1) mp) s ⊥ ms
        else fold_min (fun c => mmEval fuel true c (depth - 1) mp) s ⊤ ms

/-- `_max_value(state, depth, max_player)`. -/
def max_value (fuel : Nat) (s : MancalaState) (depth : Int) (mp : Nat) : Option EInt :=
  mmEval fuel true s depth mp

/-- `_min_value(state, depth, max_player)`. -/
def min_value (fuel : Nat) (s : MancalaState) (depth : Int) (mp : Nat) : Option EInt :=
  mmEval fuel false s depth mp

/-- The pruning loop of `_ab_max`: `v = max(v, eval(child, alpha, beta));
if v >= beta: return v; alpha = max(alpha, v)`; `beta` is fixed along the
loop and `alpha` is threaded. -/
def fold_ab_max (eval : MancalaState → EInt → Option EInt) (s : MancalaState)
    (beta : EInt) : EInt → EInt → List Nat → Option EInt
  | _, v, [] => some v
  | alpha, v, m :: rest =>
    match apply_move s m false with
    | Except.error _ => none
    | Except.ok child =>
      match eval child alpha with
      | none => none
      | some w =>
        let v2 := max v w
        if beta ≤ v2 then some v2
        else fold_ab_max eval s beta (max alpha v2) v2 rest

/-- The pruning loop of `_ab_min`: `v = min(v, eval(child, alpha, beta));
if v <= alpha: return v; beta = min(beta, v)`. -/
def fold_ab_min (eval : MancalaState → EInt → Option EInt) (s : MancalaState)
    (alpha : EInt) : EInt → EInt → List Nat → Option EInt
  | _, v, [] => some v
  | beta, v, m :: rest =>
    match apply_move s m false with
    | Except.error _ => none
    | Except.ok child =>
      match eval child beta with
      | none => none
      | some w =>
        let v2 := min v w
        if v2 ≤ alpha then some v2
        else fold_ab_min eval s alpha (min beta v2) v2 rest

/-- `_ab_max` (`isMax = true`) and `_ab_min` (`isMax = false`), fuel-indexed. -/
def abEval : Nat → Bool → MancalaState → Int → Nat → EInt → EInt → Option EInt
  | 0, _, _, _, _, _, _ => none
  | fuel + 1, isMax, s, depth, mp, alpha, beta =>
    if terminal_or_depth s depth then some (toE (utility s mp))
    else
      match s.legal_moves s.player_to_move with
      | [] => abEval fuel (!isMax) (pass_state s) depth mp alpha beta
      | ms =>
        if isMax then
          fold_ab_max (fun c a => abEval fuel false c (depth - 1) mp a beta) s beta alpha ⊥ ms
        else
          fold_ab_min (fun c b => abEval fuel true c (depth - 1) mp alpha b) s alpha beta ⊤ ms

/-- `_ab_max(state, depth, max_player, alpha, beta)`. -/
def ab_max (fuel : Nat) (s : MancalaState) (depth : Int) (mp : Nat)
    (alpha beta : EInt) : Option EInt :=
  abEval fuel true s depth mp alpha beta

/-- `_ab_min(state, depth, max_player, alpha, beta)`. -/
def ab_min (fuel : Nat) (s : MancalaState) (depth : Int) (mp : Nat)
    (alpha beta : EInt) : Option EInt :=
  abEval fuel false s depth mp alpha beta

/-- The candidate loop of `minimax_policy`: strict improvement updates the
best move, ties keep the earlier move. -/
def mm_policy_loop (fuel : Nat) (depth : Int) (s : MancalaState) (p : Nat) :
    EInt → Nat → List Nat → Option Nat
  | _, bm, [] => some bm
  | best, bm, m :: rest =>
    match apply_move s m false with
    | Except.error _ => none
    | Except.ok child =>
      match mmEval fuel false child (depth - 1) p with
      | none => none
      | some sc =>
        if best < sc then mm_policy_loop fuel depth s p sc m rest
        else mm_policy_loop fuel depth s p best bm rest

/-- `minimax_policy(depth)` applied to `(state, legal_moves, player)`;
`legal_moves[0]` on an empty list is an IndexError, modelled as `none`. -/
def minimax_policy (fuel : Nat) (depth : Int) (s : MancalaState)
    (legal : List Nat) (p : Nat) : Option Nat :=
  match legal with
  | [] => none
  | m0 :: _ => mm_policy_loop fuel depth s p ⊥ m0 legal

/-- The candidate loop of `alphabeta_policy`: root `beta` stays `inf`, and
`alpha = max(alpha, best_score)` after each candidate. -/
def ab_policy_loop (fuel : Nat) (depth : Int) (s : MancalaState) (p : Nat) :
    EInt → EInt → Nat → List Nat → Option Nat
  | _, _, bm, [] => some bm
  | alpha, best, bm, m :: rest =>
    match apply_move s m false with
    | Except.error _ => none
    | Except.ok child =>
      match abEval fuel false child (depth - 1) p alpha ⊤ with
      | none => none
      | some sc =>
        if best < sc then ab_policy_loop fuel depth s p (max alpha sc) sc m rest
        else ab_policy_loop fuel depth s p (max alpha best) best bm rest

/-- `alphabeta_policy(depth)` applied to `(state, legal_moves, player)`. -/
def alphabeta_policy (fuel : Nat) (depth : Int) (s : MancalaState)
    (legal : List Nat) (p : Nat) : Option Nat :=
  match legal with
  | [] => none
  | m0 :: _ => ab_policy_loop fuel depth s p ⊥ ⊥ m0 legal

/-- Clamp an extended integer into the window `[alpha, beta]`. -/
def clampE (alpha beta x : EInt) : EInt := max alpha (min beta x)

/-! ### List index/sum kit -/

theorem getD_set_self (l : List Int) (i : Nat) (v : Int) (h : i < l.length) :
    (l.set i v).getD i 0 = v := by
  induction l generalizing i with
  | nil => simp at h
  | cons a t ih =>
    cases i with
    | zero => simp [List.set, List.getD]
    | succ n =>
      simp only [List.set, List.getD_cons_succ]
      exact ih n (by simpa using h)

theorem getD_set_ne (l : List Int) (i j : Nat) (v : Int) (h : i ≠ j) :
    (l.set i v).getD j 0 = l.getD j 0 := by
  induction l generalizing i j with
  | nil => simp [List.set]
  | cons a t ih =>
    cases i with
    | zero =>
      cases j with
      | zero => exact absurd rfl h
      | succ m => simp [List.set]
    | succ n =>
      cases j with
      | zero => simp [List.set]
      | succ m =>
        simp only [List.set, List.getD_cons_succ]
        exact ih n m (fun he => h (by omega))

theorem getD_set_zero (l : List Int) (i : Nat) :
    (l.set i 0).getD i 0 = 0 := by
  induction l generalizing i with
  | nil => simp [List.set]
  | cons a t ih =>
    cases i with
    | zero => simp [List.set]
    | succ n =>
      simp only [List.set, List.getD_cons_succ]
      exact ih n

theorem sum_set_getD (l : List Int) (i : Nat) (v : Int) (h : i < l.length) :
    (l.set i v).sum = l.sum - l.getD i 0 + v := by
  induction l generalizing i with
  | nil => simp at h
  | cons a t ih =>
    cases i with
    | zero => simp [List.set, List.getD]; ring
    | succ n =>
      simp only [List.set, List.sum_cons, List.getD_cons_succ]
      rw [ih n (by simpa using h)]
      ring

theorem getD_nonneg {l : List Int} (h : nonnegPits l) (i : Nat) :
    0 ≤ l.getD i 0 := by
  rcases Nat.lt_or_ge i l.length with hi | hi
  · rw [List.getD_eq_getElem?_getD, List.getElem?_eq_getElem hi]
    exact h _ (List.getElem_mem hi)
  · rw [List.getD_eq_getElem?_getD, List.getElem?_eq_none hi]
    rfl

theorem nonnegPits_set {l : List Int} (h : nonnegPits l) {v : Int} (hv : 0 ≤ v)
    (i : Nat) : nonnegPits (l.set i v) := by
  intro x hx
  rcases List.mem_or_eq_of_mem_set hx with hx' | rfl
  · exact h x hx'
  · exact hv

/-! ### Side range and legal moves -/

theorem mem_side_range_iff (p i : Nat) :
    i ∈ side_range p ↔ ((p = 0 ∧ i < 6) ∨ (p ≠ 0 ∧ 7 ≤ i ∧ i < 13)) := by
  unfold side_range
  split <;> rename_i hp <;> simp [List.mem_range'_1] <;> omega

theorem mem_side_range_lt {p i : Nat} (h : i ∈ side_range p) : i < 13 := by
  rcases (mem_side_range_iff p i).1 h with ⟨_, h6⟩ | ⟨_, _, h13⟩ <;> omega

theorem legal_moves_mem {s : MancalaState} {p m : Nat}
    (h : m ∈ s.legal_moves p) : m ∈ side_range p ∧ 0 < s.pits.getD m 0 := by
  unfold MancalaState.legal_moves at h
  simpa using List.mem_filter.1 h

theorem legal_moves_of_side {s : MancalaState} {p m : Nat}
    (hm : m ∈ side_range p) (hp : 0 < s.pits.getD m 0) : m ∈ s.legal_moves p := by
  unfold MancalaState.legal_moves
  exact List.mem_filter.2 ⟨hm, by simpa using hp⟩

theorem side_range_eq_of_ne {p : Nat} (hp : p ≠ 0) : side_range p = side_range 1 := by
  unfold side_range
  simp [hp]

theorem mancala_index_lt (p : Nat) : mancala_index p < 14 := by
  unfold mancala_index; split <;> omega

theorem mancala_index_not_side (p q : Nat) : mancala_index p ∉ side_range q := by
  intro h
  have hmem := (mem_side_range_iff q _).1 h
  unfold mancala_index at hmem
  split at hmem <;> omega

/-! ### Sowing lemmas -/

theorem next_index_lt (i : Nat) : next_index i < 14 :=
  Nat.mod_lt _ (by omega)

theorem sow_loop_length (opp n idx : Nat) (pits : List Int) :
    (sow_loop opp n idx pits).1.length = pits.length := by
  induction n generalizing idx pits with
  | zero => rfl
  | succ m ih => rw [sow_loop]; rw [ih]; simp

theorem sow_loop_sum (opp n idx : Nat) (pits : List Int) (hl : pits.length = 14) :
    (sow_loop opp n idx pits).1.sum = pits.sum + n := by
  induction n generalizing idx pits with
  | zero => simp [sow_loop]
  | succ m ih =>
    rw [sow_loop]
    set j0 := next_index idx with hj0
    set j : Nat := if j0 = opp then next_index j0 else j0 with hj
    have hjlt : j < 14 := by
      rw [hj]; split <;> exact next_index_lt _
    rw [ih _ _ (by simp [hl])]
    rw [sum_set_getD _ _ _ (by omega)]
    push_cast
    ring

theorem sow_loop_idx_lt (opp n idx : Nat) (pits : List Int) (h : idx < 14) :
    (sow_loop opp n idx pits).2 < 14 := by
  induction n generalizing idx pits with
  | zero => exact h
  | succ m ih =>
    rw [sow_loop]
    apply ih
    split <;> exact next_index_lt _

theorem sow_loop_nonneg (opp n idx : Nat) (pits : List Int) (h : nonnegPits pits) :
    nonnegPits (sow_loop opp n idx pits).1 := by
  induction n generalizing idx pits with
  | zero => exact h
  | succ m ih =>
    rw [sow_loop]
    set j : Nat := if next_index idx = opp then next_index (next_index idx)
      else next_index idx with hj
    exact ih _ _ (nonnegPits_set h (by have h0 := getD_nonneg h j; omega) _)

theorem sow_result_length (s : MancalaState) (m : Nat) :
    (sow_result s m).1.length = s.pits.length := by
  unfold sow_result
  rw [sow_loop_length]; simp

theorem sow_result_idx_lt (s : MancalaState) (m : Nat) (h : m < 14) :
    (sow_result s m).2 < 14 := by
  unfold sow_result
  exact sow_loop_idx_lt _ _ _ _ h

theorem sow_result_sum {s : MancalaState} {m : Nat}
    (hl : s.pits.length = 14) (hleg : m ∈ s.legal_moves s.player_to_move) :
    (sow_result s m).1.sum = s.pits.sum := by
  obtain ⟨hside, hpos⟩ := legal_moves_mem hleg
  have hm14 : m < 14 := by have := mem_side_range_lt hside; omega
  unfold sow_result
  rw [sow_loop_sum _ _ _ _ (by simp [hl])]
  rw [sum_set_getD _ _ _ (by omega)]
  rw [Int.toNat_of_nonneg (le_of_lt hpos)]
  ring

theorem sow_result_nonneg {s : MancalaState} (m : Nat) (h : nonnegPits s.pits) :
    nonnegPits (sow_result s m).1 := by
  unfold sow_result
  exact sow_loop_nonneg _ _ _ _ (nonnegPits_set h le_rfl _)

/-! ### Capture lemmas -/

theorem capture_stage_length (player : Nat) (pits : List Int) (idx : Nat) :
    (capture_stage player pits idx).1.length = pits.length := by
  unfold capture_stage
  split
  · simp only
    split <;> simp
  · rfl

theorem opposite_facts {p idx : Nat} (h : idx ∈ side_range p) :
    opposite_index idx < 14 ∧ opposite_index idx ≠ idx ∧
      opposite_index idx ≠ mancala_index p ∧ idx ≠ mancala_index p := by
  have hmem := (mem_side_range_iff p idx).1 h
  unfold opposite_index mancala_index
  rcases hmem with ⟨hp, h6⟩ | ⟨hp, h7, h13⟩ <;> simp [hp] <;> omega

theorem capture_stage_sum {player : Nat} {pits : List Int} {idx : Nat}
    (hl : pits.length = 14) : (capture_stage player pits idx).1.sum = pits.sum := by
  unfold capture_stage
  split
  · rename_i hguard
    obtain ⟨hside, hone⟩ := hguard
    obtain ⟨hopp14, hoppne, hoppst, hidxst⟩ := opposite_facts hside
    have hidx14 : idx < 14 := by have := mem_side_range_lt hside; omega
    have hst14 : mancala_index player < 14 := mancala_index_lt player
    simp only
    split
    · simp only
      rw [sum_set_getD _ _ _ (by simp only [List.length_set]; omega)]
      rw [sum_set_getD _ _ _ (by simp only [List.length_set]; omega)]
      rw [getD_set_ne _ _ _ _ hoppne, hone]
      rw [sum_set_getD _ _ _ (by omega)]
      ring
    · rfl
  · rfl

theorem capture_stage_nonneg (player : Nat) (pits : List Int) (idx : Nat)
    (h : nonnegPits pits) : nonnegPits (capture_stage player pits idx).1 := by
  unfold capture_stage
  split
  · simp only
    split
    · rename_i hcap
      apply nonnegPits_set
      · exact nonnegPits_set (nonnegPits_set h le_rfl (opposite_index idx)) le_rfl idx
      · have h1 := getD_nonneg (l := (pits.set (opposite_index idx) 0).set idx 0)
          (nonnegPits_set (nonnegPits_set h le_rfl (opposite_index idx)) le_rfl idx)
          (mancala_index player)
        have h2 := getD_nonneg h (opposite_index idx)
        omega
    · exact h
  · exact h

/-- Capture effects when the guard holds: `opposite + 1` stones credited to
the mover's store, both pits zeroed, flag set. -/
theorem capture_stage_fires {player : Nat} {pits : List Int} {idx : Nat}
    (hl : pits.length = 14) (hside : idx ∈ side_range player)
    (hone : pits.getD idx 0 = 1) (hopp : 0 < pits.getD (opposite_index idx) 0) :
    (capture_stage player pits idx).2 = true ∧
      (capture_stage player pits idx).1.getD (mancala_index player) 0 =
        pits.getD (mancala_index player) 0 + (pits.getD (opposite_index idx) 0 + 1) ∧
      (capture_stage player pits idx).1.getD idx 0 = 0 ∧
      (capture_stage player pits idx).1.getD (opposite_index idx) 0 = 0 := by
  obtain ⟨hopp14, hoppne, hoppst, hidxst⟩ := opposite_facts hside
  have hidx14 : idx < 14 := by have := mem_side_range_lt hside; omega
  have hst14 : mancala_index player < 14 := mancala_index_lt player
  unfold capture_stage
  rw [if_pos ⟨hside, hone⟩, if_pos hopp]
  refine ⟨rfl, ?_, ?_, ?_⟩
  · rw [getD_set_self _ _ _ (by simp only [List.length_set]; omega)]
    rw [getD_set_ne _ _ _ _ hidxst, getD_set_ne _ _ _ _ hoppst]
  · rw [getD_set_ne _ _ _ _ (Ne.symm hidxst), getD_set_zero]
  · rw [getD_set_ne _ _ _ _ (Ne.symm hoppst), getD_set_ne _ _ _ _ (Ne.symm hoppne),
      getD_set_zero]

/-- No capture when the landing pit holds two or more stones after sowing. -/
theorem capture_stage_skips {player : Nat} {pits : List Int} {idx : Nat}
    (htwo : 2 ≤ pits.getD idx 0) :
    capture_stage player pits idx = (pits, false) := by
  unfold capture_stage
  rw [if_neg]
  rintro ⟨-, hone⟩
  omega

/-! ### Harvest lemmas -/

theorem zero_fold_length (ixs : List Nat) (pits : List Int) :
    (ixs.foldl (fun acc i => acc.set i 0) pits).length = pits.length := by
  induction ixs generalizing pits with
  | nil => rfl
  | cons i t ih => simp only [List.foldl_cons]; rw [ih]; simp

theorem zero_fold_getD (ixs : List Nat) (pits : List Int) (j : Nat) :
    (ixs.foldl (fun acc i => acc.set i 0) pits).getD j 0 =
      if j ∈ ixs then 0 else pits.getD j 0 := by
  induction ixs generalizing pits with
  | nil => simp
  | cons i t ih =>
    rw [List.foldl_cons, ih]
    by_cases hjt : j ∈ t
    · rw [if_pos hjt, if_pos (List.mem_cons_of_mem i hjt)]
    · by_cases hji : j = i
      · subst hji
        rw [if_neg hjt, if_pos (List.mem_cons_self j t)]
        exact getD_set_zero pits j
      · rw [if_neg hjt, if_neg (fun hc => (List.mem_cons.1 hc).elim hji hjt)]
        exact getD_set_ne _ _ _ _ (fun h => hji h.symm)

theorem zero_fold_sum (ixs : List Nat) (pits : List Int) (hnd : ixs.Nodup)
    (hb : ∀ i ∈ ixs, i < pits.length) :
    (ixs.foldl (fun acc i => acc.set i 0) pits).sum =
      pits.sum - (ixs.map (fun i => pits.getD i 0)).sum := by
  induction ixs generalizing pits with
  | nil => simp
  | cons i t ih =>
    have hit : i ∉ t := (List.nodup_cons.1 hnd).1
    simp only [List.foldl_cons, List.map_cons, List.sum_cons]
    rw [ih _ (List.nodup_cons.1 hnd).2
      (fun j hj => by rw [List.length_set]; exact hb j (List.mem_cons_of_mem i hj))]
    rw [sum_set_getD _ _ _ (hb i (List.mem_cons_self i t))]
    have hmap : t.map (fun j => (pits.set i 0).getD j 0) = t.map (fun j => pits.getD j 0) := by
      apply List.map_congr_left
      intro j hj
      exact getD_set_ne _ _ _ _ (fun h => hit (h ▸ hj))
    rw [hmap]
    ring

theorem side_range_nodup (p : Nat) : (side_range p).Nodup := by
  unfold side_range
  split <;> decide

theorem harvest_side_length (p : Nat) (pits : List Int) :
    (harvest_side p pits).length = pits.length := by
  unfold harvest_side
  simp only [List.length_set]
  exact zero_fold_length _ _

theorem harvest_side_sum (p : Nat) (pits : List Int) (hl : pits.length = 14) :
    (harvest_side p pits).sum = pits.sum := by
  have hb : ∀ i ∈ side_range p, i < pits.length := fun i hi => by
    have := mem_side_range_lt hi; omega
  unfold harvest_side
  rw [sum_set_getD _ _ _
      (by rw [zero_fold_length]; have := mancala_index_lt p; omega)]
  rw [zero_fold_sum _ _ (side_range_nodup p) hb]
  unfold side_sum
  ring

theorem harvest_side_getD_row (p : Nat) (pits : List Int) {i : Nat}
    (hi : i ∈ side_range p) : (harvest_side p pits).getD i 0 = 0 := by
  unfold harvest_side
  rw [getD_set_ne _ _ _ _ (fun h => mancala_index_not_side p p (by rw [h]; exact hi))]
  rw [zero_fold_getD, if_pos hi]

theorem harvest_side_getD_store (p : Nat) (pits : List Int) (hl : pits.length = 14) :
    (harvest_side p pits).getD (mancala_index p) 0 =
      pits.getD (mancala_index p) 0 + side_sum p pits := by
  unfold harvest_side
  rw [getD_set_self _ _ _
      (by rw [zero_fold_length]; have := mancala_index_lt p; omega)]
  rw [zero_fold_getD, if_neg (mancala_index_not_side p p)]

theorem harvest_side_getD_other (p : Nat) (pits : List Int) {i : Nat}
    (hrow : i ∉ side_range p) (hst : i ≠ mancala_index p) :
    (harvest_side p pits).getD i 0 = pits.getD i 0 := by
  unfold harvest_side
  rw [getD_set_ne _ _ _ _ (fun h => hst h.symm)]
  rw [zero_fold_getD, if_neg hrow]

theorem harvest_side_nonneg (p : Nat) (pits : List Int) (h : nonnegPits pits) :
    nonnegPits (harvest_side p pits) := by
  have hz : nonnegPits ((side_range p).foldl (fun acc i => acc.set i 0) pits) := by
    have : ∀ (ixs : List Nat) (l : List Int), nonnegPits l →
        nonnegPits (ixs.foldl (fun acc i => acc.set i 0) l) := by
      intro ixs
      induction ixs with
      | nil => exact fun l hl => hl
      | cons i t ih =>
        intro l hl
        exact ih _ (nonnegPits_set hl le_rfl i)
    exact this _ _ h
  unfold harvest_side
  apply nonnegPits_set hz
  have h1 := getD_nonneg hz (mancala_index p)
  have h2 : 0 ≤ side_sum p pits := by
    unfold side_sum
    apply List.sum_nonneg
    intro x hx
    obtain ⟨i, _, rfl⟩ := List.mem_map.1 hx
    exact getD_nonneg h i
  omega

/-! ### apply_move structure lemmas -/

theorem after_capture_length (s : MancalaState) (m : Nat) :
    (after_capture s m).1.length = s.pits.length := by
  unfold after_capture
  rw [capture_stage_length, sow_result_length]

theorem after_capture_sum {s : MancalaState} {m : Nat}
    (hl : s.pits.length = 14) (hleg : m ∈ s.legal_moves s.player_to_move) :
    (after_capture s m).1.sum = s.pits.sum := by
  unfold after_capture
  rw [capture_stage_sum (by rw [sow_result_length]; exact hl)]
  exact sow_result_sum hl hleg

theorem after_capture_nonneg (s : MancalaState) (m : Nat) (h : nonnegPits s.pits) :
    nonnegPits (after_capture s m).1 := by
  unfold after_capture
  exact capture_stage_nonneg _ _ _ (sow_result_nonneg m h)

/-- Case analysis on a successful `apply_move`: the move was legal and the
result is the harvested terminal state, the passed-through already-over
state, or the turn-advanced state. -/
theorem apply_move_ok_elim {s : MancalaState} {m : Nat} {c : Bool} {t : MancalaState}
    (h : apply_move s m c = Except.ok t) :
    m ∈ s.legal_moves s.player_to_move ∧
      (((side_sum 0 (after_capture s m).1 = 0 ∨ side_sum 1 (after_capture s m).1 = 0) ∧
          t = { pits := harvest_side 1 (harvest_side 0 (after_capture s m).1)
                player_to_move := s.player_to_move
                last_move_was_capture := (after_capture s m).2, game_over := true }) ∨
        (¬(side_sum 0 (after_capture s m).1 = 0 ∨ side_sum 1 (after_capture s m).1 = 0) ∧
          s.game_over = true ∧
          t = { pits := (after_capture s m).1, player_to_move := s.player_to_move
                last_move_was_capture := (after_capture s m).2, game_over := true }) ∨
        (¬(side_sum 0 (after_capture s m).1 = 0 ∨ side_sum 1 (after_capture s m).1 = 0) ∧
          s.game_over = false ∧
          t = { pits := (after_capture s m).1
                player_to_move :=
                  if c = true ∧ (sow_result s m).2 = mancala_index s.player_to_move
                  then s.player_to_move else 1 - s.player_to_move
                last_move_was_capture := (after_capture s m).2, game_over := false })) := by
  unfold apply_move at h
  by_cases hleg : m ∈ s.legal_moves s.player_to_move
  · rw [if_pos hleg] at h
    simp only at h
    refine ⟨hleg, ?_⟩
    split at h
    · rename_i hharv
      left
      exact ⟨hharv, (Except.ok.injEq _ _ ▸ h).symm⟩
    · rename_i hharv
      split at h
      · rename_i hgo
        right; left
        exact ⟨hharv, hgo, (Except.ok.injEq _ _ ▸ h).symm⟩
      · rename_i hgo
        right; right
        refine ⟨hharv, by simpa using hgo, (Except.ok.injEq _ _ ▸ h).symm⟩
  · rw [if_neg hleg] at h
    exact absurd h (by simp)

theorem apply_move_error_of_illegal {s : MancalaState} {m : Nat} {c : Bool}
    (h : m ∉ s.legal_moves s.player_to_move) :
    apply_move s m c = Except.error "Illegal move" := by
  unfold apply_move
  rw [if_neg h]

theorem apply_move_ok_of_legal {s : MancalaState} {m : Nat} (c : Bool)
    (h : m ∈ s.legal_moves s.player_to_move) :
    ∃ t, apply_move s m c = Except.ok t := by
  unfold apply_move
  rw [if_pos h]
  simp only
  split
  · exact ⟨_, rfl⟩
  · split <;> exact ⟨_, rfl⟩

theorem apply_move_length {s : MancalaState} {m : Nat} {c : Bool} {t : MancalaState}
    (h : apply_move s m c = Except.ok t) : t.pits.length = s.pits.length := by
  obtain ⟨hleg, hcase⟩ := apply_move_ok_elim h
  rcases hcase with ⟨_, rfl⟩ | ⟨_, _, rfl⟩ | ⟨_, _, rfl⟩
  · simp only
    rw [harvest_side_length, harvest_side_length, after_capture_length]
  · exact after_capture_length s m
  · exact after_capture_length s m

theorem apply_move_sum {s : MancalaState} {m : Nat} {c : Bool} {t : MancalaState}
    (hl : s.pits.length = 14) (h : apply_move s m c = Except.ok t) :
    t.pits.sum = s.pits.sum := by
  obtain ⟨hleg, hcase⟩ := apply_move_ok_elim h
  have hcl : (after_capture s m).1.length = 14 := by
    rw [after_capture_length]; exact hl
  rcases hcase with ⟨_, rfl⟩ | ⟨_, _, rfl⟩ | ⟨_, _, rfl⟩
  · simp only
    rw [harvest_side_sum _ _ (by rw [harvest_side_length]; exact hcl),
      harvest_side_sum _ _ hcl]
    exact after_capture_sum hl hleg
  · exact after_capture_sum hl hleg
  · exact after_capture_sum hl hleg

theorem apply_move_nonneg {s : MancalaState} {m : Nat} {c : Bool} {t : MancalaState}
    (hn : nonnegPits s.pits) (h : apply_move s m c = Except.ok t) :
    nonnegPits t.pits := by
  obtain ⟨hleg, hcase⟩ := apply_move_ok_elim h
  have hacn : nonnegPits (after_capture s m).1 := after_capture_nonneg s m hn
  generalize hq : after_capture s m = q at hcase hacn
  obtain ⟨pc, cap⟩ := q
  simp only at hcase hacn
  rcases hcase with ⟨_, rfl⟩ | ⟨_, _, rfl⟩ | ⟨_, _, rfl⟩
  · exact harvest_side_nonneg _ _ (harvest_side_nonneg _ _ hacn)
  · exact hacn
  · exact hacn

theorem side_sum_congr {p : Nat} {l l' : List Int}
    (h : ∀ i ∈ side_range p, l.getD i 0 = l'.getD i 0) :
    side_sum p l = side_sum p l' := by
  unfold side_sum
  congr 1
  exact List.map_congr_left h

theorem not_mem_side_one_of_zero {i : Nat} (h : i ∈ side_range 0) :
    i ∉ side_range 1 := by
  have h0 := (mem_side_range_iff 0 i).1 h
  intro h1
  have h1' := (mem_side_range_iff 1 i).1 h1
  omega

theorem not_mem_side_zero_of_one {i : Nat} (h : i ∈ side_range 1) :
    i ∉ side_range 0 := by
  have h1 := (mem_side_range_iff 1 i).1 h
  intro h0
  have h0' := (mem_side_range_iff 0 i).1 h0
  omega

/-- A side with nonzero sum and non-negative pits has a legal move. -/
theorem side_sum_ne_zero_legal {l : List Int} {p : Nat} (hn : nonnegPits l)
    (h : side_sum p l ≠ 0) : ∃ i ∈ side_range p, 0 < l.getD i 0 := by
  by_contra hc
  push_neg at hc
  apply h
  unfold side_sum
  apply List.sum_eq_zero
  intro x hx
  obtain ⟨i, hi, rfl⟩ := List.mem_map.1 hx
  have h1 := hc i hi
  have h2 := getD_nonneg hn i
  omega

/-- Every state produced by a successful `apply_move` from a state with
non-negative pits is either game-over or has legal moves for both sides. -/
theorem apply_move_good {s : MancalaState} {m : Nat} {c : Bool} {t : MancalaState}
    (hn : nonnegPits s.pits) (h : apply_move s m c = Except.ok t) :
    t.game_over = true ∨
      (t.legal_moves 0 ≠ [] ∧ t.legal_moves 1 ≠ []) := by
  obtain ⟨hleg, hcase⟩ := apply_move_ok_elim h
  have hacn : nonnegPits (after_capture s m).1 := after_capture_nonneg s m hn
  generalize hq : after_capture s m = q at hcase hacn
  obtain ⟨pc, cap⟩ := q
  simp only at hcase hacn
  rcases hcase with ⟨_, rfl⟩ | ⟨_, _, rfl⟩ | ⟨hside, _, rfl⟩
  · exact Or.inl rfl
  · exact Or.inl rfl
  · right
    push_neg at hside
    obtain ⟨h0, h1⟩ := hside
    constructor
    · obtain ⟨i, hi, hpos⟩ := side_sum_ne_zero_legal hacn h0
      exact List.ne_nil_of_mem (legal_moves_of_side hi hpos)
    · obtain ⟨i, hi, hpos⟩ := side_sum_ne_zero_legal hacn h1
      exact List.ne_nil_of_mem (legal_moves_of_side hi hpos)

theorem apply_move_flag {s : MancalaState} {m : Nat} {c : Bool} {t : MancalaState}
    (h : apply_move s m c = Except.ok t) :
    t.last_move_was_capture = (after_capture s m).2 := by
  obtain ⟨hleg, hcase⟩ := apply_move_ok_elim h
  generalize hq : after_capture s m = q at hcase
  obtain ⟨pc, cap⟩ := q
  simp only at hcase ⊢
  rcases hcase with ⟨_, rfl⟩ | ⟨_, _, rfl⟩ | ⟨_, _, rfl⟩ <;> rfl

/-! ### Extended-integer lemmas -/

theorem toE_lt_top (z : Int) : toE z < ⊤ := by
  unfold toE
  rw [show (⊤ : EInt) = ((⊤ : WithTop Int) : EInt) from rfl]
  exact WithBot.coe_lt_coe.2 (WithTop.coe_lt_top z)

theorem bot_lt_toE (z : Int) : (⊥ : EInt) < toE z :=
  WithBot.bot_lt_coe _

theorem clampE_comm {alpha beta : EInt} (h : alpha ≤ beta) (x : EInt) :
    clampE alpha beta x = min beta (max alpha x) := by
  unfold clampE
  rcases le_total beta x with hx | hx
  · rw [min_eq_left hx, max_eq_right h, max_eq_right (le_trans h hx), min_eq_left hx]
  · rw [min_eq_right hx, min_eq_right (max_le h hx)]

/-! ### Step equations for the folds and evaluators -/

theorem fold_max_nil {ev : MancalaState → Option EInt} {s : MancalaState} {v : EInt} :
    fold_max ev s v [] = some v := rfl

theorem fold_max_err {ev : MancalaState → Option EInt} {s : MancalaState} {v : EInt}
    {m : Nat} {rest : List Nat} {e : String}
    (happ : apply_move s m false = Except.error e) :
    fold_max ev s v (m :: rest) = none := by
  rw [fold_max, happ]

theorem fold_max_none {ev : MancalaState → Option EInt} {s : MancalaState} {v : EInt}
    {m : Nat} {rest : List Nat} {child : MancalaState}
    (happ : apply_move s m false = Except.ok child) (hev : ev child = none) :
    fold_max ev s v (m :: rest) = none := by
  rw [fold_max, happ]
  dsimp only
  rw [hev]

theorem fold_max_some {ev : MancalaState → Option EInt} {s : MancalaState} {v : EInt}
    {m : Nat} {rest : List Nat} {child : MancalaState} {w : EInt}
    (happ : apply_move s m false = Except.ok child) (hev : ev child = some w) :
    fold_max ev s v (m :: rest) = fold_max ev s (max v w) rest := by
  rw [fold_max, happ]
  dsimp only
  rw [hev]

theorem fold_min_nil {ev : MancalaState → Option EInt} {s : MancalaState} {v : EInt} :
    fold_min ev s v [] = some v := rfl

theorem fold_min_err {ev : MancalaState → Option EInt} {s : MancalaState} {v : EInt}
    {m : Nat} {rest : List Nat} {e : String}
    (happ : apply_move s m false = Except.error e) :
    fold_min ev s v (m :: rest) = none := by
  rw [fold_min, happ]

theorem fold_min_none {ev : MancalaState → Option EInt} {s : MancalaState} {v : EInt}
    {m : Nat} {rest : List Nat} {child : MancalaState}
    (happ : apply_move s m false = Except.ok child) (hev : ev child = none) :
    fold_min ev s v (m :: rest) = none := by
  rw [fold_min, happ]
  dsimp only
  rw [hev]

theorem fold_min_some {ev : MancalaState → Option EInt} {s : MancalaState} {v : EInt}
    {m : Nat} {rest : List Nat} {child : MancalaState} {w : EInt}
    (happ : apply_move s m false = Except.ok child) (hev : ev child = some w) :
    fold_min ev s v (m :: rest) = fold_min ev s (min v w) rest := by
  rw [fold_min, happ]
  dsimp only
  rw [hev]

theorem fold_ab_max_nil {ev : MancalaState → EInt → Option EInt} {s : MancalaState}
    {beta alpha v : EInt} : fold_ab_max ev s beta alpha v [] = some v := rfl

theorem fold_ab_max_err {ev : MancalaState → EInt → Option EInt} {s : MancalaState}
    {beta alpha v : EInt} {m : Nat} {rest : List Nat} {e : String}
    (happ : apply_move s m false = Except.error e) :
    fold_ab_max ev s beta alpha v (m :: rest) = none := by
  rw [fold_ab_max, happ]

theorem fold_ab_max_none {ev : MancalaState → EInt → Option EInt} {s : MancalaState}
    {beta alpha v : EInt} {m : Nat} {rest : List Nat} {child : MancalaState}
    (happ : apply_move s m false = Except.ok child) (hev : ev child alpha = none) :
    fold_ab_max ev s beta alpha v (m :: rest) = none := by
  rw [fold_ab_max, happ]
  dsimp only
  rw [hev]

theorem fold_ab_max_cut {ev : MancalaState → EInt → Option EInt} {s : MancalaState}
    {beta alpha v : EInt} {m : Nat} {rest : List Nat} {child : MancalaState} {w : EInt}
    (happ : apply_move s m false = Except.ok child) (hev : ev child alpha = some w)
    (hcut : beta ≤ max v w) :
    fold_ab_max ev s beta alpha v (m :: rest) = some (max v w) := by
  rw [fold_ab_max, happ]
  dsimp only
  rw [hev]
  dsimp only
  rw [if_pos hcut]

theorem fold_ab_max_go {ev : MancalaState → EInt → Option EInt} {s : MancalaState}
    {beta alpha v : EInt} {m : Nat} {rest : List Nat} {child : MancalaState} {w : EInt}
    (happ : apply_move s m false = Except.ok child) (hev : ev child alpha = some w)
    (hcut : ¬ beta ≤ max v w) :
    fold_ab_max ev s beta alpha v (m :: rest) =
      fold_ab_max ev s beta (max alpha (max v w)) (max v w) rest := by
  rw [fold_ab_max, happ]
  dsimp only
  rw [hev]
  dsimp only
  rw [if_neg hcut]

theorem fold_ab_min_nil {ev : MancalaState → EInt → Option EInt} {s : MancalaState}
    {alpha beta v : EInt} : fold_ab_min ev s alpha beta v [] = some v := rfl

theorem fold_ab_min_err {ev : MancalaState → EInt → Option EInt} {s : MancalaState}
    {alpha beta v : EInt} {m : Nat} {rest : List Nat} {e : String}
    (happ : apply_move s m false = Except.error e) :
    fold_ab_min ev s alpha beta v (m :: rest) = none := by
  rw [fold_ab_min, happ]

theorem fold_ab_min_none {ev : MancalaState → EInt → Option EInt} {s : MancalaState}
    {alpha beta v : EInt} {m : Nat} {rest : List Nat} {child : MancalaState}
    (happ : apply_move s m false = Except.ok child) (hev : ev child beta = none) :
    fold_ab_min ev s alpha beta v (m :: rest) = none := by
  rw [fold_ab_min, happ]
  dsimp only
  rw [hev]

theorem fold_ab_min_cut {ev : MancalaState → EInt → Option EInt} {s : MancalaState}
    {alpha beta v : EInt} {m : Nat} {rest : List Nat} {child : MancalaState} {w : EInt}
    (happ : apply_move s m false = Except.ok child) (hev : ev child beta = some w)
    (hcut : min v w ≤ alpha) :
    fold_ab_min ev s alpha beta v (m :: rest) = some (min v w) := by
  rw [fold_ab_min, happ]
  dsimp only
  rw [hev]
  dsimp only
  rw [if_pos hcut]

theorem fold_ab_min_go {ev : MancalaState → EInt → Option EInt} {s : MancalaState}
    {alpha beta v : EInt} {m : Nat} {rest : List Nat} {child : MancalaState} {w : EInt}
    (happ : apply_move s m false = Except.ok child) (hev : ev child beta = some w)
    (hcut : ¬ min v w ≤ alpha) :
    fold_ab_min ev s alpha beta v (m :: rest) =
      fold_ab_min ev s alpha (min beta (min v w)) (min v w) rest := by
  rw [fold_ab_min, happ]
  dsimp only
  rw [hev]
  dsimp only
  rw [if_neg hcut]

theorem mmEval_zero {b : Bool} {s : MancalaState} {d : Int} {mp : Nat} :
    mmEval 0 b s d mp = none := rfl

theorem mmEval_term {f : Nat} {b : Bool} {s : MancalaState} {d : Int} {mp : Nat}
    (h : terminal_or_depth s d = true) :
    mmEval (f + 1) b s d mp = some (toE (utility s mp)) := by
  rw [mmEval]
  simp only [h, if_true]

theorem mmEval_pass {f : Nat} {b : Bool} {s : MancalaState} {d : Int} {mp : Nat}
    (h : terminal_or_depth s d = false)
    (hleg : s.legal_moves s.player_to_move = []) :
    mmEval (f + 1) b s d mp = mmEval f (!b) (pass_state s) d mp := by
  rw [mmEval]
  simp only [h, Bool.false_eq_true, if_false, hleg]

theorem mmEval_fold_max {f : Nat} {s : MancalaState} {d : Int} {mp : Nat}
    {m : Nat} {rest : List Nat}
    (h : terminal_or_depth s d = false)
    (hleg : s.legal_moves s.player_to_move = m :: rest) :
    mmEval (f + 1) true s d mp =
      fold_max (fun c => mmEval f false c (d - 1) mp) s ⊥ (m :: rest) := by
  rw [mmEval]
  simp only [h, Bool.false_eq_true, if_false, hleg, if_true]

theorem mmEval_fold_min {f : Nat} {s : MancalaState} {d : Int} {mp : Nat}
    {m : Nat} {rest : List Nat}
    (h : terminal_or_depth s d = false)
    (hleg : s.legal_moves s.player_to_move = m :: rest) :
    mmEval (f + 1) false s d mp =
      fold_min (fun c => mmEval f true c (d - 1) mp) s ⊤ (m :: rest) := by
  rw [mmEval]
  simp only [h, Bool.false_eq_true, if_false, hleg]

theorem abEval_zero {b : Bool} {s : MancalaState} {d : Int} {mp : Nat}
    {alpha beta : EInt} : abEval 0 b s d mp alpha beta = none := rfl

theorem abEval_term {f : Nat} {b : Bool} {s : MancalaState} {d : Int} {mp : Nat}
    {alpha beta : EInt} (h : terminal_or_depth s d = true) :
    abEval (f + 1) b s d mp alpha beta = some (toE (utility s mp)) := by
  rw [abEval]
  simp only [h, if_true]

theorem abEval_pass {f : Nat} {b : Bool} {s : MancalaState} {d : Int} {mp : Nat}
    {alpha beta : EInt} (h : terminal_or_depth s d = false)
    (hleg : s.legal_moves s.player_to_move = []) :
    abEval (f + 1) b s d mp alpha beta = abEval f (!b) (pass_state s) d mp alpha beta := by
  rw [abEval]
  simp only [h, Bool.false_eq_true, if_false, hleg]

theorem abEval_fold_max {f : Nat} {s : MancalaState} {d : Int} {mp : Nat}
    {alpha beta : EInt} {m : Nat} {rest : List Nat}
    (h : terminal_or_depth s d = false)
    (hleg : s.legal_moves s.player_to_move = m :: rest) :
    abEval (f + 1) true s d mp alpha beta =
      fold_ab_max (fun c a => abEval f false c (d - 1) mp a beta) s beta alpha ⊥
        (m :: rest) := by
  rw [abEval]
  simp only [h, Bool.false_eq_true, if_false, hleg, if_true]

theorem abEval_fold_min {f : Nat} {s : MancalaState} {d : Int} {mp : Nat}
    {alpha beta : EInt} {m : Nat} {rest : List Nat}
    (h : terminal_or_depth s d = false)
    (hleg : s.legal_moves s.player_to_move = m :: rest) :
    abEval (f + 1) false s d mp alpha beta =
      fold_ab_min (fun c b => abEval f true c (d - 1) mp alpha b) s alpha beta ⊤
        (m :: rest) := by
  rw [abEval]
  simp only [h, Bool.false_eq_true, if_false, hleg]

/-! ### Fold congruence, bounds, monotonicity, finiteness -/

theorem fold_max_congr {ev ev' : MancalaState → Option EInt} {s : MancalaState}
    (h : ∀ c w, ev c = some w → ev' c = some w) :
    ∀ (ms : List Nat) (v : EInt) {V : EInt},
      fold_max ev s v ms = some V → fold_max ev' s v ms = some V := by
  intro ms
  induction ms with
  | nil => intro v V hV; exact hV
  | cons m rest ih =>
    intro v V hV
    cases happ : apply_move s m false with
    | error e => rw [fold_max_err happ] at hV; exact absurd hV (by simp)
    | ok child =>
      cases hev : ev child with
      | none => rw [fold_max_none happ hev] at hV; exact absurd hV (by simp)
      | some w =>
        rw [fold_max_some happ hev] at hV
        rw [fold_max_some happ (h child w hev)]
        exact ih _ hV

theorem fold_min_congr {ev ev' : MancalaState → Option EInt} {s : MancalaState}
    (h : ∀ c w, ev c = some w → ev' c = some w) :
    ∀ (ms : List Nat) (v : EInt) {V : EInt},
      fold_min ev s v ms = some V → fold_min ev' s v ms = some V := by
  intro ms
  induction ms with
  | nil => intro v V hV; exact hV
  | cons m rest ih =>
    intro v V hV
    cases happ : apply_move s m false with
    | error e => rw [fold_min_err happ] at hV; exact absurd hV (by simp)
    | ok child =>
      cases hev : ev child with
      | none => rw [fold_min_none happ hev] at hV; exact absurd hV (by simp)
      | some w =>
        rw [fold_min_some happ hev] at hV
        rw [fold_min_some happ (h child w hev)]
        exact ih _ hV

theorem fold_ab_max_congr {ev ev' : MancalaState → EInt → Option EInt}
    {s : MancalaState} {beta : EInt}
    (h : ∀ c a w, ev c a = some w → ev' c a = some w) :
    ∀ (ms : List Nat) (alpha v : EInt) {V : EInt},
      fold_ab_max ev s beta alpha v ms = some V →
      fold_ab_max ev' s beta alpha v ms = some V := by
  intro ms
  induction ms with
  | nil => intro alpha v V hV; exact hV
  | cons m rest ih =>
    intro alpha v V hV
    cases happ : apply_move s m false with
    | error e => rw [fold_ab_max_err happ] at hV; exact absurd hV (by simp)
    | ok child =>
      cases hev : ev child alpha with
      | none => rw [fold_ab_max_none happ hev] at hV; exact absurd hV (by simp)
      | some w =>
        by_cases hcut : beta ≤ max v w
        · rw [fold_ab_max_cut happ hev hcut] at hV
          rw [fold_ab_max_cut happ (h child alpha w hev) hcut]
          exact hV
        · rw [fold_ab_max_go happ hev hcut] at hV
          rw [fold_ab_max_go happ (h child alpha w hev) hcut]
          exact ih _ _ hV

theorem fold_ab_min_congr {ev ev' : MancalaState → EInt → Option EInt}
    {s : MancalaState} {alpha : EInt}
    (h : ∀ c b w, ev c b = some w → ev' c b = some w) :
    ∀ (ms : List Nat) (beta v : EInt) {V : EInt},
      fold_ab_min ev s alpha beta v ms = some V →
      fold_ab_min ev' s alpha beta v ms = some V := by
  intro ms
  induction ms with
  | nil => intro beta v V hV; exact hV
  | cons m rest ih =>
    intro beta v V hV
    cases happ : apply_move s m false with
    | error e => rw [fold_ab_min_err happ] at hV; exact absurd hV (by simp)
    | ok child =>
      cases hev : ev child beta with
      | none => rw [fold_ab_min_none happ hev] at hV; exact absurd hV (by simp)
      | some w =>
        by_cases hcut : min v w ≤ alpha
        · rw [fold_ab_min_cut happ hev hcut] at hV
          rw [fold_ab_min_cut happ (h child beta w hev) hcut]
          exact hV
        · rw [fold_ab_min_go happ hev hcut] at hV
          rw [fold_ab_min_go happ (h child beta w hev) hcut]
          exact ih _ _ hV

theorem fold_max_ge {ev : MancalaState → Option EInt} {s : MancalaState} :
    ∀ {ms : List Nat} {v V : EInt}, fold_max ev s v ms = some V → v ≤ V := by
  intro ms
  induction ms with
  | nil =>
    intro v V hV
    rw [fold_max_nil] at hV
    cases hV
    exact le_rfl
  | cons m rest ih =>
    intro v V hV
    cases happ : apply_move s m false with
    | error e => rw [fold_max_err happ] at hV; exact absurd hV (by simp)
    | ok child =>
      cases hev : ev child with
      | none => rw [fold_max_none happ hev] at hV; exact absurd hV (by simp)
      | some w =>
        rw [fold_max_some happ hev] at hV
        exact le_trans (le_max_left v w) (ih hV)

theorem fold_min_le {ev : MancalaState → Option EInt} {s : MancalaState} :
    ∀ {ms : List Nat} {v V : EInt}, fold_min ev s v ms = some V → V ≤ v := by
  intro ms
  induction ms with
  | nil =>
    intro v V hV
    rw [fold_min_nil] at hV
    cases hV
    exact le_rfl
  | cons m rest ih =>
    intro v V hV
    cases happ : apply_move s m false with
    | error e => rw [fold_min_err happ] at hV; exact absurd hV (by simp)
    | ok child =>
      cases hev : ev child with
      | none => rw [fold_min_none happ hev] at hV; exact absurd hV (by simp)
      | some w =>
        rw [fold_min_some happ hev] at hV
        exact le_trans (ih hV) (min_le_left v w)

theorem mmEval_mono :
    ∀ (f f' : Nat), f ≤ f' → ∀ (b : Bool) (s : MancalaState) (d : Int) (mp : Nat)
      (v : EInt), mmEval f b s d mp = some v → mmEval f' b s d mp = some v := by
  intro f
  induction f with
  | zero =>
    intro f' _ b s d mp v hv
    rw [mmEval_zero] at hv
    exact absurd hv (by simp)
  | succ n ih =>
    intro f' hf b s d mp v hv
    obtain ⟨g, rfl⟩ : ∃ g, f' = g + 1 := ⟨f' - 1, by omega⟩
    have hng : n ≤ g := by omega
    cases hterm : terminal_or_depth s d with
    | true =>
      rw [mmEval_term hterm] at hv ⊢
      exact hv
    | false =>
      cases hleg : s.legal_moves s.player_to_move with
      | nil =>
        rw [mmEval_pass hterm hleg] at hv ⊢
        exact ih g hng _ _ _ _ _ hv
      | cons m rest =>
        cases b with
        | true =>
          rw [mmEval_fold_max hterm hleg] at hv ⊢
          exact fold_max_congr (fun c w hw => ih g hng _ _ _ _ _ hw) _ _ hv
        | false =>
          rw [mmEval_fold_min hterm hleg] at hv ⊢
          exact fold_min_congr (fun c w hw => ih g hng _ _ _ _ _ hw) _ _ hv

theorem abEval_mono :
    ∀ (f f' : Nat), f ≤ f' → ∀ (b : Bool) (s : MancalaState) (d : Int) (mp : Nat)
      (alpha beta : EInt) (v : EInt),
      abEval f b s d mp alpha beta = some v → abEval f' b s d mp alpha beta = some v := by
  intro f
  induction f with
  | zero =>
    intro f' _ b s d mp alpha beta v hv
    rw [abEval_zero] at hv
    exact absurd hv (by simp)
  | succ n ih =>
    intro f' hf b s d mp alpha beta v hv
    obtain ⟨g, rfl⟩ : ∃ g, f' = g + 1 := ⟨f' - 1, by omega⟩
    have hng : n ≤ g := by omega
    cases hterm : terminal_or_depth s d with
    | true =>
      rw [abEval_term hterm] at hv ⊢
      exact hv
    | false =>
      cases hleg : s.legal_moves s.player_to_move with
      | nil =>
        rw [abEval_pass hterm hleg] at hv ⊢
        exact ih g hng _ _ _ _ _ _ _ hv
      | cons m rest =>
        cases b with
        | true =>
          rw [abEval_fold_max hterm hleg] at hv ⊢
          exact fold_ab_max_congr (fun c a w hw => ih g hng _ _ _ _ _ _ _ hw) _ _ _ hv
        | false =>
          rw [abEval_fold_min hterm hleg] at hv ⊢
          exact fold_ab_min_congr (fun c b' w hw => ih g hng _ _ _ _ _ _ _ hw) _ _ _ hv

theorem toE_max (a b : Int) : max (toE a) (toE b) = toE (max a b) := by
  unfold toE
  simp [WithTop.coe_max, WithBot.coe_max]

theorem toE_min (a b : Int) : min (toE a) (toE b) = toE (min a b) := by
  unfold toE
  simp [WithTop.coe_min, WithBot.coe_min]

theorem fold_max_finite_acc {ev : MancalaState → Option EInt} {s : MancalaState}
    (hch : ∀ c w, ev c = some w → ∃ z, w = toE z) :
    ∀ (ms : List Nat) (v : EInt), (∃ z, v = toE z) →
      ∀ {V : EInt}, fold_max ev s v ms = some V → ∃ z, V = toE z := by
  intro ms
  induction ms with
  | nil =>
    intro v hv V hV
    rw [fold_max_nil] at hV
    cases hV
    exact hv
  | cons m rest ih =>
    intro v hv V hV
    cases happ : apply_move s m false with
    | error e => rw [fold_max_err happ] at hV; exact absurd hV (by simp)
    | ok child =>
      cases hev : ev child with
      | none => rw [fold_max_none happ hev] at hV; exact absurd hV (by simp)
      | some w =>
        rw [fold_max_some happ hev] at hV
        obtain ⟨z1, rfl⟩ := hv
        obtain ⟨z2, rfl⟩ := hch child w hev
        exact ih _ ⟨max z1 z2, (toE_max z1 z2).symm⟩ hV

theorem fold_min_finite_acc {ev : MancalaState → Option EInt} {s : MancalaState}
    (hch : ∀ c w, ev c = some w → ∃ z, w = toE z) :
    ∀ (ms : List Nat) (v : EInt), (∃ z, v = toE z) →
      ∀ {V : EInt}, fold_min ev s v ms = some V → ∃ z, V = toE z := by
  intro ms
  induction ms with
  | nil =>
    intro v hv V hV
    rw [fold_min_nil] at hV
    cases hV
    exact hv
  | cons m rest ih =>
    intro v hv V hV
    cases happ : apply_move s m false with
    | error e => rw [fold_min_err happ] at hV; exact absurd hV (by simp)
    | ok child =>
      cases hev : ev child with
      | none => rw [fold_min_none happ hev] at hV; exact absurd hV (by simp)
      | some w =>
        rw [fold_min_some happ hev] at hV
        obtain ⟨z1, rfl⟩ := hv
        obtain ⟨z2, rfl⟩ := hch child w hev
        exact ih _ ⟨min z1 z2, (toE_min z1 z2).symm⟩ hV

theorem mmEval_finite :
    ∀ (f : Nat) (b : Bool) (s : MancalaState) (d : Int) (mp : Nat) (v : EInt),
      mmEval f b s d mp = some v → ∃ z, v = toE z := by
  intro f
  induction f with
  | zero =>
    intro b s d mp v hv
    rw [mmEval_zero] at hv
    exact absurd hv (by simp)
  | succ n ih =>
    intro b s d mp v hv
    cases hterm : terminal_or_depth s d with
    | true =>
      rw [mmEval_term hterm] at hv
      exact ⟨utility s mp, by cases hv; rfl⟩
    | false =>
      cases hleg : s.legal_moves s.player_to_move with
      | nil =>
        rw [mmEval_pass hterm hleg] at hv
        exact ih _ _ _ _ _ hv
      | cons m rest =>
        cases b with
        | true =>
          rw [mmEval_fold_max hterm hleg] at hv
          cases happ : apply_move s m false with
          | error e => rw [fold_max_err happ] at hv; exact absurd hv (by simp)
          | ok child =>
            cases hev : mmEval n false child (d - 1) mp with
            | none => rw [fold_max_none happ hev] at hv; exact absurd hv (by simp)
            | some w =>
              rw [fold_max_some happ hev, max_eq_right bot_le] at hv
              exact fold_max_finite_acc (fun c w' hw' => ih _ _ _ _ _ hw') _ _
                (ih _ _ _ _ _ hev) hv
        | false =>
          rw [mmEval_fold_min hterm hleg] at hv
          cases happ : apply_move s m false with
          | error e => rw [fold_min_err happ] at hv; exact absurd hv (by simp)
          | ok child =>
            cases hev : mmEval n true child (d - 1) mp with
            | none => rw [fold_min_none happ hev] at hv; exact absurd hv (by simp)
            | some w =>
              rw [fold_min_some happ hev, min_eq_right le_top] at hv
              exact fold_min_finite_acc (fun c w' hw' => ih _ _ _ _ _ hw') _ _
                (ih _ _ _ _ _ hev) hv

/-! ### Alpha-beta versus minimax: the clamp correspondence

Fail-soft alpha-beta agrees with minimax up to clamping into the
`[alpha, beta]` window: `clampE al be (ab value) = clampE al be (mm value)`.
The loop lemmas thread the窗 invariants of the Python loops. -/

theorem fold_ab_max_clamp {evmm : MancalaState → Option EInt}
    {evab : MancalaState → EInt → Option EInt} {s : MancalaState} {al be : EInt}
    (hab : al < be)
    (hch : ∀ c w, evmm c = some w → ∀ a, a < be →
      ∃ w', evab c a = some w' ∧ clampE a be w' = clampE a be w) :
    ∀ (ms : List Nat) (v v' alpha : EInt),
      alpha = max al v' → v' < be →
      max al (min be v') = max al (min be v) →
      ∀ {V : EInt}, fold_max evmm s v ms = some V →
      ∃ V', fold_ab_max evab s be alpha v' ms = some V' ∧
        clampE al be V' = clampE al be V := by
  intro ms
  induction ms with
  | nil =>
    intro v v' alpha halpha hv'be hacc V hV
    rw [fold_max_nil] at hV
    cases hV
    exact ⟨v', fold_ab_max_nil, hacc⟩
  | cons m rest ih =>
    intro v v' alpha halpha hv'be hacc V hV
    cases happ : apply_move s m false with
    | error e => rw [fold_max_err happ] at hV; exact absurd hV (by simp)
    | ok child =>
      cases hev : evmm child with
      | none => rw [fold_max_none happ hev] at hV; exact absurd hV (by simp)
      | some w =>
        rw [fold_max_some happ hev] at hV
        have halbe : alpha < be := by rw [halpha]; exact max_lt hab hv'be
        obtain ⟨w', hw', hcw⟩ := hch child w hev alpha halbe
        have hminv' : min be v' = v' := min_eq_right (le_of_lt hv'be)
        have halpha' : alpha = max al (min be v) := by
          rw [halpha, ← hacc, hminv']
        by_cases hcut : be ≤ max v' w'
        · refine ⟨max v' w', fold_ab_max_cut happ hw' hcut, ?_⟩
          have hbw' : be ≤ w' := by
            by_contra hlt
            push_neg at hlt
            exact absurd hcut (not_le.2 (max_lt hv'be hlt))
          have h2 : clampE alpha be w' = be := by
            unfold clampE
            rw [min_eq_left hbw', max_eq_right (le_of_lt halbe)]
          have h3 : clampE alpha be w = be := by rw [← hcw]; exact h2
          have hbw : be ≤ w := by
            by_contra hlt
            push_neg at hlt
            have hminw : min be w = w := min_eq_right (le_of_lt hlt)
            unfold clampE at h3
            rw [hminw] at h3
            exact absurd h3 (ne_of_lt (max_lt halbe hlt))
          have hVge : max v w ≤ V := fold_max_ge hV
          have hbV : be ≤ V := le_trans (le_trans hbw (le_max_right v w)) hVge
          unfold clampE
          rw [min_eq_left hcut, min_eq_left hbV]
        · rw [fold_ab_max_go happ hw' hcut]
          have hv2be : max v' w' < be := not_le.1 hcut
          apply ih (max v w) (max v' w') (max alpha (max v' w')) ?_ hv2be ?_ hV
          · rw [halpha]
            have habs : max v' (max v' w') = max v' w' := by rw [← max_assoc, max_self]
            rw [max_assoc al v' (max v' w'), habs]
          · calc max al (min be (max v' w'))
                = max al (max (min be v') (min be w')) := by rw [min_max_distrib_left]
              _ = max (max al (min be v')) (min be w') := by rw [max_assoc]
              _ = max (max al v') (min be w') := by rw [hminv']
              _ = max alpha (min be w') := by rw [← halpha]
              _ = clampE alpha be w' := rfl
              _ = clampE alpha be w := hcw
              _ = max alpha (min be w) := rfl
              _ = max (max al (min be v)) (min be w) := by rw [← halpha']
              _ = max al (max (min be v) (min be w)) := by rw [max_assoc]
              _ = max al (min be (max v w)) := by rw [← min_max_distrib_left]

theorem fold_ab_min_clamp {evmm : MancalaState → Option EInt}
    {evab : MancalaState → EInt → Option EInt} {s : MancalaState} {al be : EInt}
    (hab : al < be)
    (hch : ∀ c w, evmm c = some w → ∀ b, al < b →
      ∃ w', evab c b = some w' ∧ min b (max al w') = min b (max al w)) :
    ∀ (ms : List Nat) (v v' beta : EInt),
      beta = min be v' → al < v' →
      min be (max al v') = min be (max al v) →
      ∀ {V : EInt}, fold_min evmm s v ms = some V →
      ∃ V', fold_ab_min evab s al beta v' ms = some V' ∧
        min be (max al V') = min be (max al V) := by
  intro ms
  induction ms with
  | nil =>
    intro v v' beta hbeta halv' hacc V hV
    rw [fold_min_nil] at hV
    cases hV
    exact ⟨v', fold_ab_min_nil, hacc⟩
  | cons m rest ih =>
    intro v v' beta hbeta halv' hacc V hV
    cases happ : apply_move s m false with
    | error e => rw [fold_min_err happ] at hV; exact absurd hV (by simp)
    | ok child =>
      cases hev : evmm child with
      | none => rw [fold_min_none happ hev] at hV; exact absurd hV (by simp)
      | some w =>
        rw [fold_min_some happ hev] at hV
        have halbeta : al < beta := by rw [hbeta]; exact lt_min hab halv'
        obtain ⟨w', hw', hcw⟩ := hch child w hev beta halbeta
        have hmaxv' : max al v' = v' := max_eq_right (le_of_lt halv')
        have hbeta' : beta = min be (max al v) := by
          rw [hbeta, ← hacc, hmaxv']
        by_cases hcut : min v' w' ≤ al
        · refine ⟨min v' w', fold_ab_min_cut happ hw' hcut, ?_⟩
          have haw' : w' ≤ al := by
            by_contra hlt
            push_neg at hlt
            exact absurd hcut (not_le.2 (lt_min halv' hlt))
          have h2 : min beta (max al w') = al := by
            rw [max_eq_left haw', min_eq_right (le_of_lt halbeta)]
          have h3 : min beta (max al w) = al := by rw [← hcw]; exact h2
          have haw : w ≤ al := by
            by_contra hlt
            push_neg at hlt
            have hmaxw : max al w = w := max_eq_right (le_of_lt hlt)
            rw [hmaxw] at h3
            exact absurd h3 (ne_of_gt (lt_min halbeta hlt))
          have hVle : V ≤ min v w := fold_min_le hV
          have hVa : V ≤ al := le_trans hVle (le_trans (min_le_right v w) haw)
          rw [max_eq_left hcut, max_eq_left hVa]
        · rw [fold_ab_min_go happ hw' hcut]
          have halv2 : al < min v' w' := not_le.1 hcut
          apply ih (min v w) (min v' w') (min beta (min v' w')) ?_ halv2 ?_ hV
          · rw [hbeta]
            have habs : min v' (min v' w') = min v' w' := by rw [← min_assoc, min_self]
            rw [min_assoc be v' (min v' w'), habs]
          · calc min be (max al (min v' w'))
                = min be (min (max al v') (max al w')) := by rw [max_min_distrib_left]
              _ = min (min be (max al v')) (max al w') := by rw [min_assoc]
              _ = min (min be v') (max al w') := by rw [hmaxv']
              _ = min beta (max al w') := by rw [← hbeta]
              _ = min beta (max al w) := hcw
              _ = min (min be (max al v)) (max al w) := by rw [← hbeta']
              _ = min be (min (max al v) (max al w)) := by rw [min_assoc]
              _ = min be (max al (min v w)) := by rw [← max_min_distrib_left]

/-- Fail-soft alpha-beta correspondence: whenever the minimax evaluator
returns a value at some fuel, the alpha-beta evaluator at the same fuel,
called with any window `al < be`, returns a value with the same clamp into
the window. -/
theorem abEval_clampE :
    ∀ (f : Nat) (b : Bool) (s : MancalaState) (d : Int) (mp : Nat) (al be : EInt),
      al < be → ∀ {v : EInt}, mmEval f b s d mp = some v →
      ∃ v', abEval f b s d mp al be = some v' ∧ clampE al be v' = clampE al be v := by
  intro f
  induction f with
  | zero =>
    intro b s d mp al be hab v hv
    rw [mmEval_zero] at hv
    exact absurd hv (by simp)
  | succ n ih =>
    intro b s d mp al be hab v hv
    cases hterm : terminal_or_depth s d with
    | true =>
      rw [mmEval_term hterm] at hv
      cases hv
      exact ⟨_, abEval_term hterm, rfl⟩
    | false =>
      cases hleg : s.legal_moves s.player_to_move with
      | nil =>
        rw [mmEval_pass hterm hleg] at hv
        rw [abEval_pass hterm hleg]
        exact ih _ _ _ _ _ _ hab hv
      | cons m rest =>
        cases b with
        | true =>
          rw [mmEval_fold_max hterm hleg] at hv
          rw [abEval_fold_max hterm hleg]
          exact fold_ab_max_clamp hab
            (fun c w hw a ha => ih false c (d - 1) mp a be ha hw)
            (m :: rest) ⊥ ⊥ al (max_eq_left bot_le).symm
            (lt_of_le_of_lt bot_le hab) rfl hv
        | false =>
          rw [mmEval_fold_min hterm hleg] at hv
          rw [abEval_fold_min hterm hleg]
          have hdual := fold_ab_min_clamp hab
            (fun c w hw b' hb' => by
              obtain ⟨w', hw', hc⟩ := ih true c (d - 1) mp al b' hb' hw
              refine ⟨w', hw', ?_⟩
              have h1 := clampE_comm (le_of_lt hb') w'
              have h2 := clampE_comm (le_of_lt hb') w
              rw [← h1, ← h2, hc])
            (m :: rest) ⊤ ⊤ be (min_eq_left le_top).symm
            (lt_of_lt_of_le hab le_top) rfl hv
          obtain ⟨v', hv', hc⟩ := hdual
          refine ⟨v', hv', ?_⟩
          rw [clampE_comm (le_of_lt hab), clampE_comm (le_of_lt hab), hc]

/-! ### Termination of the search on well-formed states -/

theorem pass_state_pits (s : MancalaState) : (pass_state s).pits = s.pits := rfl

theorem pass_state_player (s : MancalaState) :
    (pass_state s).player_to_move = 1 - s.player_to_move := rfl

theorem pass_state_game_over (s : MancalaState) :
    (pass_state s).game_over = s.game_over := rfl

theorem legal_moves_pass (s : MancalaState) (q : Nat) :
    (pass_state s).legal_moves q = s.legal_moves q := rfl

theorem legal_moves_ne_zero {s : MancalaState} {p : Nat} (hp : p ≠ 0) :
    s.legal_moves p = s.legal_moves 1 := by
  unfold MancalaState.legal_moves
  rw [side_range_eq_of_ne hp]

theorem terminal_of_game_over {s : MancalaState} (hgo : s.game_over = true)
    (d : Int) : terminal_or_depth s d = true := by
  simp [terminal_or_depth, hgo]

theorem terminal_zero (s : MancalaState) : terminal_or_depth s 0 = true := by
  simp [terminal_or_depth]

theorem terminal_false {s : MancalaState} {d : Int} (hgo : s.game_over = false)
    (hd : d ≠ 0) : terminal_or_depth s d = false := by
  simp [terminal_or_depth, hgo, hd]

theorem exists_uniform_fuel {Q : Nat → Nat → Prop}
    (hmono : ∀ m f f', f ≤ f' → Q m f → Q m f') :
    ∀ ms : List Nat, (∀ m ∈ ms, ∃ f, Q m f) → ∃ F, ∀ m ∈ ms, Q m F := by
  intro ms
  induction ms with
  | nil => intro _; exact ⟨0, by simp⟩
  | cons m rest ih =>
    intro h
    obtain ⟨f1, hf1⟩ := h m (List.mem_cons_self m rest)
    obtain ⟨F, hF⟩ := ih (fun x hx => h x (List.mem_cons_of_mem m hx))
    refine ⟨max f1 F, fun x hx => ?_⟩
    rcases List.mem_cons.1 hx with rfl | hx'
    · exact hmono x f1 _ (le_max_left _ _) hf1
    · exact hmono x F _ (le_max_right _ _) (hF x hx')

theorem fold_max_isSome {ev : MancalaState → Option EInt} {s : MancalaState} :
    ∀ ms : List Nat,
      (∀ m ∈ ms, ∃ child, apply_move s m false = Except.ok child ∧
        (ev child).isSome = true) →
      ∀ v, (fold_max ev s v ms).isSome = true := by
  intro ms
  induction ms with
  | nil => intro _ v; rw [fold_max_nil]; rfl
  | cons m rest ih =>
    intro h v
    obtain ⟨child, happ, hsome⟩ := h m (List.mem_cons_self m rest)
    obtain ⟨w, hw⟩ := Option.isSome_iff_exists.1 hsome
    rw [fold_max_some happ hw]
    exact ih (fun x hx => h x (List.mem_cons_of_mem m hx)) _

theorem fold_min_isSome {ev : MancalaState → Option EInt} {s : MancalaState} :
    ∀ ms : List Nat,
      (∀ m ∈ ms, ∃ child, apply_move s m false = Except.ok child ∧
        (ev child).isSome = true) →
      ∀ v, (fold_min ev s v ms).isSome = true := by
  intro ms
  induction ms with
  | nil => intro _ v; rw [fold_min_nil]; rfl
  | cons m rest ih =>
    intro h v
    obtain ⟨child, happ, hsome⟩ := h m (List.mem_cons_self m rest)
    obtain ⟨w, hw⟩ := Option.isSome_iff_exists.1 hsome
    rw [fold_min_some happ hw]
    exact ih (fun x hx => h x (List.mem_cons_of_mem m hx)) _

/-- Minimax termination on good states: from any state with non-negative
pits that is game-over or has a legal move for some side, the fuelled
evaluators succeed at every depth for sufficiently large fuel. -/
theorem mm_terminates :
    ∀ (n : Nat) (s : MancalaState) (mp : Nat),
      nonnegPits s.pits →
      (s.game_over = true ∨ s.legal_moves 0 ≠ [] ∨ s.legal_moves 1 ≠ []) →
      ∃ f, (mmEval f true s (n : Int) mp).isSome = true ∧
        (mmEval f false s (n : Int) mp).isSome = true := by
  intro n
  induction n with
  | zero =>
    intro s mp hn hg
    have ht : terminal_or_depth s ((0 : Nat) : Int) = true := terminal_zero s
    exact ⟨1, by rw [mmEval_term ht]; rfl, by rw [mmEval_term ht]; rfl⟩
  | succ k ih =>
    intro s mp hn hg
    by_cases hgo : s.game_over = true
    · have ht := terminal_of_game_over hgo (((k + 1 : Nat) : Int))
      exact ⟨1, by rw [mmEval_term ht]; rfl, by rw [mmEval_term ht]; rfl⟩
    · have hgo' : s.game_over = false := by
        cases hsg : s.game_over
        · rfl
        · exact absurd hsg hgo
      have hne0 : ((k + 1 : Nat) : Int) ≠ 0 := by push_cast; omega
      have hd1 : ((k + 1 : Nat) : Int) - 1 = ((k : Nat) : Int) := by push_cast; ring
      have step : ∀ s' : MancalaState, nonnegPits s'.pits → s'.game_over = false →
          s'.legal_moves s'.player_to_move ≠ [] →
          ∃ f, (mmEval f true s' ((k + 1 : Nat) : Int) mp).isSome = true ∧
            (mmEval f false s' ((k + 1 : Nat) : Int) mp).isSome = true := by
        intro s' hn' hgo'' hleg'
        have ht' : terminal_or_depth s' ((k + 1 : Nat) : Int) = false :=
          terminal_false hgo'' hne0
        have hQmono : ∀ (m f f' : Nat), f ≤ f' →
            (∃ child, apply_move s' m false = Except.ok child ∧
              (mmEval f true child ((k : Nat) : Int) mp).isSome = true ∧
              (mmEval f false child ((k : Nat) : Int) mp).isSome = true) →
            (∃ child, apply_move s' m false = Except.ok child ∧
              (mmEval f' true child ((k : Nat) : Int) mp).isSome = true ∧
              (mmEval f' false child ((k : Nat) : Int) mp).isSome = true) := by
          intro m f f' hff ⟨child, happ, h1, h2⟩
          obtain ⟨v1, hv1⟩ := Option.isSome_iff_exists.1 h1
          obtain ⟨v2, hv2⟩ := Option.isSome_iff_exists.1 h2
          exact ⟨child, happ,
            Option.isSome_iff_exists.2 ⟨v1, mmEval_mono f f' hff _ _ _ _ _ hv1⟩,
            Option.isSome_iff_exists.2 ⟨v2, mmEval_mono f f' hff _ _ _ _ _ hv2⟩⟩
        have hQall : ∀ m ∈ s'.legal_moves s'.player_to_move, ∃ f,
            ∃ child, apply_move s' m false = Except.ok child ∧
              (mmEval f true child ((k : Nat) : Int) mp).isSome = true ∧
              (mmEval f false child ((k : Nat) : Int) mp).isSome = true := by
          intro m hm
          obtain ⟨child, happ⟩ := apply_move_ok_of_legal false hm
          have hcn : nonnegPits child.pits := apply_move_nonneg hn' happ
          have hcg : child.game_over = true ∨
              child.legal_moves 0 ≠ [] ∨ child.legal_moves 1 ≠ [] := by
            rcases apply_move_good hn' happ with h | ⟨h0, h1⟩
            · exact Or.inl h
            · exact Or.inr (Or.inl h0)
          obtain ⟨f, h1, h2⟩ := ih child mp hcn hcg
          exact ⟨f, child, happ, h1, h2⟩
        obtain ⟨F, hF⟩ := exists_uniform_fuel hQmono _ hQall
        cases hlegeq : s'.legal_moves s'.player_to_move with
        | nil => exact absurd hlegeq hleg'
        | cons m rest =>
          refine ⟨F + 1, ?_, ?_⟩
          · rw [mmEval_fold_max ht' hlegeq]
            apply fold_max_isSome
            intro x hx
            obtain ⟨child, happ, h1, h2⟩ := hF x (hlegeq ▸ hx)
            exact ⟨child, happ, by rw [hd1]; exact h2⟩
          · rw [mmEval_fold_min ht' hlegeq]
            apply fold_min_isSome
            intro x hx
            obtain ⟨child, happ, h1, h2⟩ := hF x (hlegeq ▸ hx)
            exact ⟨child, happ, by rw [hd1]; exact h1⟩
      have ht : terminal_or_depth s ((k + 1 : Nat) : Int) = false :=
        terminal_false hgo' hne0
      by_cases hcur : s.legal_moves s.player_to_move = []
      · have hpassleg : (pass_state s).legal_moves (pass_state s).player_to_move ≠ [] := by
          rw [legal_moves_pass, pass_state_player]
          by_cases hp : s.player_to_move = 0
          · rw [hp] at hcur ⊢
            rcases hg with h | h | h
            · rw [hgo'] at h; exact absurd h (by simp)
            · exact absurd hcur h
            · simpa using h
          · have hsub : 1 - s.player_to_move = 0 := by omega
            rw [hsub]
            rw [legal_moves_ne_zero hp] at hcur
            rcases hg with h | h | h
            · rw [hgo'] at h; exact absurd h (by simp)
            · exact h
            · exact absurd hcur h
        obtain ⟨f2, hf2t, hf2f⟩ := step (pass_state s)
          (by rw [pass_state_pits]; exact hn)
          (by rw [pass_state_game_over]; exact hgo') hpassleg
        refine ⟨f2 + 1, ?_, ?_⟩
        · rw [mmEval_pass ht hcur]
          exact hf2f
        · rw [mmEval_pass ht hcur]
          exact hf2t
      · exact step s hn hgo' hcur

theorem getD_replicate_zero (i : Nat) : (List.replicate 14 (0 : Int)).getD i 0 = 0 := by
  rw [List.getD_eq_getElem?_getD, List.getElem?_replicate]
  split <;> rfl

theorem legal_moves_zeroRows (p q : Nat) :
    MancalaState.legal_moves
      { pits := List.replicate 14 0, player_to_move := p,
        last_move_was_capture := false, game_over := false } q = [] := by
  unfold MancalaState.legal_moves
  apply List.filter_eq_nil_iff.2
  intro i hi
  simp only [decide_eq_true_eq, not_lt]
  rw [getD_replicate_zero i]

/-- On the all-rows-empty, not-yet-game-over state the pass-turn branch of
the search recurses at the same depth forever: no fuel suffices. -/
theorem mmEval_zeroRows_none :
    ∀ (f : Nat) (b : Bool) (p : Nat) (mp : Nat),
      mmEval f b
        { pits := List.replicate 14 0, player_to_move := p,
          last_move_was_capture := false, game_over := false } 1 mp = none := by
  intro f
  induction f with
  | zero => intro b p mp; exact mmEval_zero
  | succ n ih =>
    intro b p mp
    have hterm : terminal_or_depth
        { pits := List.replicate 14 0, player_to_move := p,
          last_move_was_capture := false, game_over := false } 1 = false := by
      simp [terminal_or_depth]
    rw [mmEval_pass hterm (legal_moves_zeroRows p p)]
    exact ih (!b) (1 - p) mp

/-! ### Claim theorems: rules engine -/

/-- C1: for every state with 14 pit entries and every move `apply_move`
accepts (i.e. every legal move), with either value of `continuation_rule`,
the sum of the 14 pit entries of the returned state equals the sum for the
input state. -/
theorem C1_conservation {s : MancalaState} {m : Nat} {c : Bool} {t : MancalaState}
    (hl : s.pits.length = 14) (h : apply_move s m c = Except.ok t) :
    t.pits.sum = s.pits.sum :=
  apply_move_sum hl h

theorem C1_conservation_witness :
    start4.pits.length = 14 ∧ start4_move2.pits.sum = start4.pits.sum :=
  ⟨by decide, C1_conservation (by decide)
    (show apply_move start4 2 true = Except.ok start4_move2 from rfl)⟩

/-- C2: `apply_move` fails with the IllegalMove error exactly when the move
index is not in `legal_moves` for the current mover, and succeeds exactly
when it is (so it never fails on an element of `legal_moves`); the input
state is a pure value, so it is never modified. -/
theorem C2_illegal_iff (s : MancalaState) (m : Nat) (c : Bool) :
    (apply_move s m c = Except.error "Illegal move" ↔
      m ∉ s.legal_moves s.player_to_move) ∧
    ((∃ t, apply_move s m c = Except.ok t) ↔ m ∈ s.legal_moves s.player_to_move) := by
  by_cases hm : m ∈ s.legal_moves s.player_to_move
  · obtain ⟨t, ht⟩ := apply_move_ok_of_legal c hm
    refine ⟨⟨fun he => absurd (he ▸ ht) (by simp), fun hn => absurd hm hn⟩,
      ⟨fun _ => hm, fun _ => ⟨t, ht⟩⟩⟩
  · refine ⟨⟨fun _ => hm, fun _ => apply_move_error_of_illegal hm⟩,
      ⟨?_, fun hmem => absurd hmem hm⟩⟩
    rintro ⟨t, ht⟩
    rw [apply_move_error_of_illegal hm] at ht
    exact absurd ht (by simp)

/-- C4: if, after sowing and the capture check, either row sums to zero,
then the returned state is game-over, every row pit is zero, and each
player's store has been credited with that player's remaining row stones. -/
theorem C4_terminal_harvest {s : MancalaState} {m : Nat} {c : Bool} {t : MancalaState}
    (hl : s.pits.length = 14) (h : apply_move s m c = Except.ok t)
    (hz : side_sum 0 (after_capture s m).1 = 0 ∨ side_sum 1 (after_capture s m).1 = 0) :
    t.game_over = true ∧
    (∀ i ∈ side_range 0, t.pits.getD i 0 = 0) ∧
    (∀ i ∈ side_range 1, t.pits.getD i 0 = 0) ∧
    t.pits.getD (mancala_index 0) 0 =
      (after_capture s m).1.getD (mancala_index 0) 0 + side_sum 0 (after_capture s m).1 ∧
    t.pits.getD (mancala_index 1) 0 =
      (after_capture s m).1.getD (mancala_index 1) 0 + side_sum 1 (after_capture s m).1 := by
  obtain ⟨hleg, hcase⟩ := apply_move_ok_elim h
  have hcl : (after_capture s m).1.length = 14 := by
    rw [after_capture_length]; exact hl
  generalize hq : after_capture s m = q at hcase hcl hz ⊢
  obtain ⟨pc, cap⟩ := q
  simp only at hcase hcl hz ⊢
  rcases hcase with ⟨_, rfl⟩ | ⟨hside, _, rfl⟩ | ⟨hside, _, rfl⟩
  · refine ⟨rfl, ?_, ?_, ?_, ?_⟩
    · intro i hi
      simp only
      rw [harvest_side_getD_other 1 _ (not_mem_side_one_of_zero hi)
          (by have := mem_side_range_lt hi
              simp [mancala_index]; omega)]
      exact harvest_side_getD_row 0 _ hi
    · intro i hi
      simp only
      exact harvest_side_getD_row 1 _ hi
    · simp only
      rw [harvest_side_getD_other 1 _ (mancala_index_not_side 0 1) (by decide)]
      exact harvest_side_getD_store 0 _ hcl
    · simp only
      rw [harvest_side_getD_store 1 _ (by rw [harvest_side_length]; exact hcl)]
      rw [harvest_side_getD_other 0 _ (mancala_index_not_side 1 0) (by decide)]
      congr 1
      apply side_sum_congr
      intro i hi
      exact harvest_side_getD_other 0 _ (not_mem_side_zero_of_one hi)
        (by have := (mem_side_range_iff 1 i).1 hi
            simp [mancala_index]; omega)
  · exact absurd hz hside
  · exact absurd hz hside

theorem C4_terminal_harvest_witness :
    harvState.pits.length = 14 ∧
    (side_sum 0 (after_capture harvState 5).1 = 0 ∨
      side_sum 1 (after_capture harvState 5).1 = 0) ∧
    harvResult.game_over = true ∧
    harvResult.pits.getD (mancala_index 1) 0 =
      (after_capture harvState 5).1.getD (mancala_index 1) 0 +
        side_sum 1 (after_capture harvState 5).1 :=
  ⟨by decide, by decide,
    (C4_terminal_harvest (by decide)
      (show apply_move harvState 5 false = Except.ok harvResult from rfl)
      (by decide)).1,
    (C4_terminal_harvest (t := harvResult) (by decide)
      (show apply_move harvState 5 false = Except.ok harvResult from rfl)
      (by decide)).2.2.2.2⟩

/-- C5 counterexample: the claim "landing in an own pit that held >= 1 stone
before sowing never triggers a capture" fails.  From `cexCapture`
(13 stones in pit 0) the sowing wraps the whole 13-slot ring, the last
stone lands back in pit 0 — which held 13 ≥ 1 stones before the move, now
holds exactly 1 — and pit 12 opposite holds 1 > 0, so the code captures. -/
theorem C5_cex :
    1 ≤ cexCapture.pits.getD 0 0 ∧
    (sow_result cexCapture 0).2 = 0 ∧
    (sow_result cexCapture 0).1.getD 0 0 = 1 ∧
    apply_move cexCapture 0 false = Except.ok cexCaptureResult ∧
    cexCaptureResult.last_move_was_capture = true :=
  ⟨by decide, by decide, by decide, rfl, by decide⟩

/-- C5 (amended): if the final sown stone lands in a pit on the mover's own
row holding exactly 1 stone after sowing and the opposite pit is non-empty,
`opposite + 1` stones move to the mover's store, both pits are zeroed and
the returned state's capture flag is true; landing in an own pit holding at
least 2 stones after sowing (in particular any pit other than the emptied
source pit that was non-empty before an at-most-13-stone sow) never
triggers a capture; and the returned capture flag always equals the flag
computed by the capture stage. -/
theorem C5_capture_amended {s : MancalaState} {m : Nat} {c : Bool} {t : MancalaState}
    (hl : s.pits.length = 14) (h : apply_move s m c = Except.ok t) :
    t.last_move_was_capture = (after_capture s m).2 ∧
    ((sow_result s m).2 ∈ side_range s.player_to_move →
      (sow_result s m).1.getD (sow_result s m).2 0 = 1 →
      0 < (sow_result s m).1.getD (opposite_index (sow_result s m).2) 0 →
      (after_capture s m).2 = true ∧
      (after_capture s m).1.getD (mancala_index s.player_to_move) 0 =
        (sow_result s m).1.getD (mancala_index s.player_to_move) 0 +
          ((sow_result s m).1.getD (opposite_index (sow_result s m).2) 0 + 1) ∧
      (after_capture s m).1.getD (sow_result s m).2 0 = 0 ∧
      (after_capture s m).1.getD (opposite_index (sow_result s m).2) 0 = 0) ∧
    (2 ≤ (sow_result s m).1.getD (sow_result s m).2 0 →
      after_capture s m = ((sow_result s m).1, false)) := by
  refine ⟨apply_move_flag h, ?_, ?_⟩
  · intro hside hone hopp
    have hsl : (sow_result s m).1.length = 14 := by
      rw [sow_result_length]; exact hl
    have := capture_stage_fires hsl hside hone hopp
    exact ⟨this.1, this.2.1, this.2.2.1, this.2.2.2⟩
  · intro htwo
    exact capture_stage_skips htwo

theorem C5_capture_amended_witness :
    cexCapture.pits.length = 14 ∧
    (sow_result cexCapture 0).2 ∈ side_range cexCapture.player_to_move ∧
    (after_capture cexCapture 0).2 = true ∧
    (after_capture cexCapture 0).1.getD (mancala_index cexCapture.player_to_move) 0 =
      (sow_result cexCapture 0).1.getD (mancala_index cexCapture.player_to_move) 0 +
        ((sow_result cexCapture 0).1.getD (opposite_index (sow_result cexCapture 0).2) 0 + 1) := by
  refine ⟨by decide, by decide, ?_, ?_⟩
  · exact ((C5_capture_amended (s := cexCapture) (m := 0) (c := false)
      (t := cexCaptureResult) (by decide) rfl).2.1
      (by decide) (by decide) (by decide)).1
  · exact ((C5_capture_amended (s := cexCapture) (m := 0) (c := false)
      (t := cexCaptureResult) (by decide) rfl).2.1
      (by decide) (by decide) (by decide)).2.1

/-- C6: when the returned state is not game over, the same player moves
again exactly when the continuation rule is enabled and the last stone
landed in the mover's own store; otherwise the turn passes. -/
theorem C6_turn {s : MancalaState} {m : Nat} {c : Bool} {t : MancalaState}
    (h : apply_move s m c = Except.ok t) (hngo : t.game_over = false) :
    t.player_to_move =
      if c = true ∧ (sow_result s m).2 = mancala_index s.player_to_move
      then s.player_to_move else 1 - s.player_to_move := by
  obtain ⟨hleg, hcase⟩ := apply_move_ok_elim h
  generalize hq : after_capture s m = q at hcase
  obtain ⟨pc, cap⟩ := q
  simp only at hcase
  rcases hcase with ⟨_, rfl⟩ | ⟨_, _, rfl⟩ | ⟨_, _, rfl⟩
  · exact absurd hngo (by simp)
  · exact absurd hngo (by simp)
  · rfl

theorem C6_turn_witness :
    start4_move2.game_over = false ∧
    start4_move2.player_to_move =
      (if true = true ∧ (sow_result start4 2).2 = mancala_index start4.player_to_move
       then start4.player_to_move else 1 - start4.player_to_move) :=
  ⟨by decide, C6_turn (c := true)
    (show apply_move start4 2 true = Except.ok start4_move2 from rfl) (by decide)⟩

/-- C7: pit entries are non-negative in every state produced by
`standard_start` (with a non-negative stones-per-pit argument), by `clone`,
or by a successful `apply_move` from a state with non-negative pits. -/
theorem C7_nonneg :
    (∀ k : Int, 0 ≤ k → nonnegPits (standard_start k).pits) ∧
    (∀ s : MancalaState, nonnegPits s.pits → nonnegPits s.clone.pits) ∧
    (∀ (s : MancalaState) (m : Nat) (c : Bool) (t : MancalaState),
      nonnegPits s.pits → apply_move s m c = Except.ok t → nonnegPits t.pits) := by
  refine ⟨?_, fun s h => h, fun s m c t hn h => apply_move_nonneg hn h⟩
  intro k hk x hx
  unfold standard_start at hx
  simp only [List.mem_append, List.mem_replicate, List.mem_singleton] at hx
  have hxk : x = k ∨ x = 0 := by tauto
  rcases hxk with rfl | rfl <;> omega

theorem C7_nonneg_witness :
    nonnegPits (standard_start 4).pits ∧
    nonnegPits (standard_start 4).clone.pits ∧
    nonnegPits start4_move2.pits :=
  ⟨C7_nonneg.1 4 (by decide),
    C7_nonneg.2.1 (standard_start 4) (C7_nonneg.1 4 (by decide)),
    C7_nonneg.2.2 start4 2 true start4_move2 (by decide)
      (show apply_move start4 2 true = Except.ok start4_move2 from rfl)⟩

/-- C10: the utility is antisymmetric in the player argument for players
0 and 1, and is zero exactly when the two stores hold equal counts. -/
theorem C10_utility_antisym (s : MancalaState) (p : Nat) (hp : p = 0 ∨ p = 1) :
    utility s p = -utility s (1 - p) ∧
      (utility s p = 0 ↔ s.pits.getD 6 0 = s.pits.getD 13 0) := by
  rcases hp with rfl | rfl <;>
    simp [utility, mancala_index] <;> omega

theorem C10_utility_antisym_witness :
    utility start4 0 = -utility start4 1 ∧
      (utility start4 0 = 0 ↔ start4.pits.getD 6 0 = start4.pits.getD 13 0) :=
  C10_utility_antisym start4 0 (Or.inl rfl)

/-! ### Claim theorems: search termination (C9) -/

/-- C9 counterexample: the claim "for every state and every non-negative
depth the minimax evaluation terminates" fails.  On the all-zero-rows state
with `game_over` unset (constructible, e.g. as `standard_start 0`), both
sides have no legal moves, so `_max_value`/`_min_value` pass the turn back
and forth at the same depth forever: no fuel bound makes the evaluation
return. -/
theorem C9_cex :
    ¬ ∃ f : Nat, (max_value f zeroState 1 0).isSome = true := by
  rintro ⟨f, hf⟩
  have h0 : mmEval f true zeroState 1 0 = none := mmEval_zeroRows_none f true 0 0
  unfold max_value at hf
  rw [h0] at hf
  exact absurd hf (by simp)

/-- C9 (amended): for every non-negative depth and every state with
non-negative pits that is game over or has a legal move for at least one
side — which includes every state `apply_move` can return — the fuelled
`_max_value`/`_min_value` evaluations succeed for sufficiently large fuel,
and at the same fuel `_ab_max`/`_ab_min` succeed for every window
`alpha < beta`; so a full fixed-depth search on such states runs to
completion. -/
theorem C9_termination_amended (d : Int) (hd : 0 ≤ d) (s : MancalaState) (mp : Nat)
    (hn : nonnegPits s.pits)
    (hg : s.game_over = true ∨ s.legal_moves 0 ≠ [] ∨ s.legal_moves 1 ≠ []) :
    ∃ f, (max_value f s d mp).isSome = true ∧ (min_value f s d mp).isSome = true ∧
      ∀ alpha beta : EInt, alpha < beta →
        (ab_max f s d mp alpha beta).isSome = true ∧
        (ab_min f s d mp alpha beta).isSome = true := by
  obtain ⟨n, rfl⟩ : ∃ n : Nat, d = (n : Int) := ⟨d.toNat, (Int.toNat_of_nonneg hd).symm⟩
  obtain ⟨f, h1, h2⟩ := mm_terminates n s mp hn hg
  refine ⟨f, h1, h2, ?_⟩
  intro alpha beta hab
  obtain ⟨v1, hv1⟩ := Option.isSome_iff_exists.1 h1
  obtain ⟨v2, hv2⟩ := Option.isSome_iff_exists.1 h2
  obtain ⟨w1, hw1, -⟩ := abEval_clampE f true s _ mp alpha beta hab hv1
  obtain ⟨w2, hw2, -⟩ := abEval_clampE f false s _ mp alpha beta hab hv2
  exact ⟨Option.isSome_iff_exists.2 ⟨w1, hw1⟩, Option.isSome_iff_exists.2 ⟨w2, hw2⟩⟩

theorem C9_termination_amended_witness :
    (0 : Int) ≤ 1 ∧ nonnegPits start4.pits ∧
    (start4.game_over = true ∨ start4.legal_moves 0 ≠ [] ∨ start4.legal_moves 1 ≠ []) ∧
    ∃ f, (max_value f start4 1 0).isSome = true ∧
      (min_value f start4 1 0).isSome = true ∧
      ∀ alpha beta : EInt, alpha < beta →
        (ab_max f start4 1 0 alpha beta).isSome = true ∧
        (ab_min f start4 1 0 alpha beta).isSome = true :=
  ⟨by decide, by decide, by decide,
    C9_termination_amended 1 (by decide) start4 0 (by decide) (by decide)⟩

/-! ### Claim theorems: policy equivalence (C3) -/

theorem mm_policy_loop_nil {f : Nat} {d : Int} {s : MancalaState} {p : Nat}
    {best : EInt} {bm : Nat} : mm_policy_loop f d s p best bm [] = some bm := rfl

theorem mm_policy_loop_err {f : Nat} {d : Int} {s : MancalaState} {p : Nat}
    {best : EInt} {bm m : Nat} {rest : List Nat} {e : String}
    (happ : apply_move s m false = Except.error e) :
    mm_policy_loop f d s p best bm (m :: rest) = none := by
  rw [mm_policy_loop, happ]

theorem mm_policy_loop_none {f : Nat} {d : Int} {s : MancalaState} {p : Nat}
    {best : EInt} {bm m : Nat} {rest : List Nat} {child : MancalaState}
    (happ : apply_move s m false = Except.ok child)
    (hev : mmEval f false child (d - 1) p = none) :
    mm_policy_loop f d s p best bm (m :: rest) = none := by
  rw [mm_policy_loop, happ]
  dsimp only
  rw [hev]

theorem mm_policy_loop_lt {f : Nat} {d : Int} {s : MancalaState} {p : Nat}
    {best : EInt} {bm m : Nat} {rest : List Nat} {child : MancalaState} {sc : EInt}
    (happ : apply_move s m false = Except.ok child)
    (hev : mmEval f false child (d - 1) p = some sc) (hlt : best < sc) :
    mm_policy_loop f d s p best bm (m :: rest) = mm_policy_loop f d s p sc m rest := by
  rw [mm_policy_loop, happ]
  dsimp only
  rw [hev]
  dsimp only
  rw [if_pos hlt]

theorem mm_policy_loop_ge {f : Nat} {d : Int} {s : MancalaState} {p : Nat}
    {best : EInt} {bm m : Nat} {rest : List Nat} {child : MancalaState} {sc : EInt}
    (happ : apply_move s m false = Except.ok child)
    (hev : mmEval f false child (d - 1) p = some sc) (hlt : ¬ best < sc) :
    mm_policy_loop f d s p best bm (m :: rest) =
      mm_policy_loop f d s p best bm rest := by
  rw [mm_policy_loop, happ]
  dsimp only
  rw [hev]
  dsimp only
  rw [if_neg hlt]

theorem ab_policy_loop_nil {f : Nat} {d : Int} {s : MancalaState} {p : Nat}
    {alpha best : EInt} {bm : Nat} :
    ab_policy_loop f d s p alpha best bm [] = some bm := rfl

theorem ab_policy_loop_err {f : Nat} {d : Int} {s : MancalaState} {p : Nat}
    {alpha best : EInt} {bm m : Nat} {rest : List Nat} {e : String}
    (happ : apply_move s m false = Except.error e) :
    ab_policy_loop f d s p alpha best bm (m :: rest) = none := by
  rw [ab_policy_loop, happ]

theorem ab_policy_loop_none {f : Nat} {d : Int} {s : MancalaState} {p : Nat}
    {alpha best : EInt} {bm m : Nat} {rest : List Nat} {child : MancalaState}
    (happ : apply_move s m false = Except.ok child)
    (hev : abEval f false child (d - 1) p alpha ⊤ = none) :
    ab_policy_loop f d s p alpha best bm (m :: rest) = none := by
  rw [ab_policy_loop, happ]
  dsimp only
  rw [hev]

theorem ab_policy_loop_lt {f : Nat} {d : Int} {s : MancalaState} {p : Nat}
    {alpha best : EInt} {bm m : Nat} {rest : List Nat} {child : MancalaState} {sc : EInt}
    (happ : apply_move s m false = Except.ok child)
    (hev : abEval f false child (d - 1) p alpha ⊤ = some sc) (hlt : best < sc) :
    ab_policy_loop f d s p alpha best bm (m :: rest) =
      ab_policy_loop f d s p (max alpha sc) sc m rest := by
  rw [ab_policy_loop, happ]
  dsimp only
  rw [hev]
  dsimp only
  rw [if_pos hlt]

theorem ab_policy_loop_ge {f : Nat} {d : Int} {s : MancalaState} {p : Nat}
    {alpha best : EInt} {bm m : Nat} {rest : List Nat} {child : MancalaState} {sc : EInt}
    (happ : apply_move s m false = Except.ok child)
    (hev : abEval f false child (d - 1) p alpha ⊤ = some sc) (hlt : ¬ best < sc) :
    ab_policy_loop f d s p alpha best bm (m :: rest) =
      ab_policy_loop f d s p (max alpha best) best bm rest := by
  rw [ab_policy_loop, happ]
  dsimp only
  rw [hev]
  dsimp only
  rw [if_neg hlt]

/-- Root loop equivalence: starting from equal best scores (with the root
alpha equal to the running best, as the Python code maintains), the minimax
and alpha-beta candidate loops select the same move. -/
theorem policy_loop_eq :
    ∀ (L : List Nat) (f1 f2 : Nat) (d : Int) (s : MancalaState) (p : Nat)
      (best : EInt) (bm : Nat) {m1 m2 : Nat},
      ((∃ z, best = toE z) ∨ best = ⊥) →
      mm_policy_loop f1 d s p best bm L = some m1 →
      ab_policy_loop f2 d s p best best bm L = some m2 →
      m1 = m2 := by
  intro L
  induction L with
  | nil =>
    intro f1 f2 d s p best bm m1 m2 hfin hmm hab
    rw [mm_policy_loop_nil] at hmm
    rw [ab_policy_loop_nil] at hab
    cases hmm
    cases hab
    rfl
  | cons m rest ih =>
    intro f1 f2 d s p best bm m1 m2 hfin hmm hab
    cases happ : apply_move s m false with
    | error e =>
      rw [mm_policy_loop_err happ] at hmm
      exact absurd hmm (by simp)
    | ok child =>
      cases hsc : mmEval f1 false child (d - 1) p with
      | none =>
        rw [mm_policy_loop_none happ hsc] at hmm
        exact absurd hmm (by simp)
      | some sc =>
        cases hsc' : abEval f2 false child (d - 1) p best ⊤ with
        | none =>
          rw [ab_policy_loop_none happ hsc'] at hab
          exact absurd hab (by simp)
        | some sc2 =>
          have hF1 : mmEval (max f1 f2) false child (d - 1) p = some sc :=
            mmEval_mono f1 _ (le_max_left _ _) _ _ _ _ _ hsc
          have hbesttop : best < ⊤ := by
            rcases hfin with ⟨z, rfl⟩ | rfl
            · exact toE_lt_top z
            · exact lt_of_le_of_lt bot_le (toE_lt_top 0)
          obtain ⟨w', hw', hcw⟩ :=
            abEval_clampE (max f1 f2) false child (d - 1) p best ⊤ hbesttop hF1
          have hsc2w : sc2 = w' := by
            have hmono := abEval_mono f2 (max f1 f2) (le_max_right _ _) _ _ _ _ _ _ _ hsc'
            rw [hmono] at hw'
            exact Option.some.inj hw'
          subst hsc2w
          have hclamp : max best sc2 = max best sc := by
            unfold clampE at hcw
            rw [min_eq_right le_top, min_eq_right le_top] at hcw
            exact hcw
          by_cases hlt : best < sc
          · have hscfin : ∃ z, sc = toE z := mmEval_finite f1 false child (d - 1) p sc hsc
            have hsc2eq : sc2 = sc := by
              have hmax : max best sc = sc := max_eq_right (le_of_lt hlt)
              rw [hmax] at hclamp
              rcases le_or_lt sc2 best with hle | hgt
              · rw [max_eq_left hle] at hclamp
                exact absurd hclamp (ne_of_lt hlt)
              · rw [max_eq_right (le_of_lt hgt)] at hclamp
                exact hclamp
            have hlt2 : best < sc2 := by rw [hsc2eq]; exact hlt
            rw [mm_policy_loop_lt happ hsc hlt] at hmm
            rw [ab_policy_loop_lt happ hsc' hlt2] at hab
            rw [hsc2eq, max_eq_right (le_of_lt hlt)] at hab
            exact ih f1 f2 d s p sc m (Or.inl hscfin) hmm hab
          · have hge : sc ≤ best := not_lt.1 hlt
            have hnlt2 : ¬ best < sc2 := by
              rw [max_eq_left hge] at hclamp
              intro hcon
              rw [max_eq_right (le_of_lt hcon)] at hclamp
              exact absurd hclamp.symm (ne_of_lt hcon)
            rw [mm_policy_loop_ge happ hsc hlt] at hmm
            rw [ab_policy_loop_ge happ hsc' hnlt2] at hab
            rw [max_self] at hab
            exact ih f1 f2 d s p best bm hfin hmm hab

/-- C3: for every depth, state, and candidate move list, whenever the
minimax policy and the alpha-beta policy (each run with enough fuel to
return an answer) both return a move, the moves are identical — pruning
never changes the selected move. -/
theorem C3_policy_equiv (f1 f2 : Nat) (d : Int) (s : MancalaState) (L : List Nat)
    (p : Nat) (m1 m2 : Nat)
    (h1 : minimax_policy f1 d s L p = some m1)
    (h2 : alphabeta_policy f2 d s L p = some m2) : m1 = m2 := by
  cases L with
  | nil =>
    rw [show minimax_policy f1 d s [] p = none from rfl] at h1
    exact absurd h1 (by simp)
  | cons m0 rest =>
    rw [show minimax_policy f1 d s (m0 :: rest) p =
      mm_policy_loop f1 d s p ⊥ m0 (m0 :: rest) from rfl] at h1
    rw [show alphabeta_policy f2 d s (m0 :: rest) p =
      ab_policy_loop f2 d s p ⊥ ⊥ m0 (m0 :: rest) from rfl] at h2
    exact policy_loop_eq (m0 :: rest) f1 f2 d s p ⊥ m0 (Or.inr rfl) h1 h2

theorem C3_policy_equiv_witness :
    minimax_policy 3 1 start4 [0, 1, 2, 3, 4, 5] 0 = some 2 ∧
    alphabeta_policy 3 1 start4 [0, 1, 2, 3, 4, 5] 0 = some 2 ∧ (2 : Nat) = 2 :=
  ⟨by decide, by decide,
    C3_policy_equiv 3 3 1 start4 [0, 1, 2, 3, 4, 5] 0 2 2 (by decide) (by decide)⟩

end Mancala
